import Mathlib

/-!
Verification of the path-addressable JSON document engine of the
json-formatter repository (React/TypeScript).  The JavaScript values the
code manipulates are modelled by the inductive type `JVal`; `undefined`
is a first-class value (`JVal.undefined`) because the source code can read
missing members and even store `undefined` into containers.  Objects are
insertion-ordered association lists (JSON documents have distinct keys,
captured by the well-formedness predicate `WF` where a proof needs it);
arrays are lists, and a JavaScript assignment `arr[i] = x` past the end
pads the array with `undefined` holes exactly as the engine does.
-/

/-- JavaScript value as manipulated by the source (`unknown`): `undefined`,
`null`, booleans, numbers (modelled as rationals), strings, arrays and
plain objects with insertion-ordered string keys. -/
inductive JVal where
  | undefined
  | null
  | bool (b : Bool)
  | num (q : Rat)
  | str (s : String)
  | arr (elems : List JVal)
  | obj (entries : List (String × JVal))
deriving Repr

/-- Path segment (`JsonPathSegment = string | number` in the source): an
object key or a non-negative array index. -/
inductive Seg where
  | key (k : String)
  | idx (i : Nat)
deriving Repr, DecidableEq

/-- Structural path: ordered list of segments, `[]` is the root. -/
abbrev JPath := List Seg

/-- Array read `l[i]`: the element when `i` is in range, otherwise
`undefined`. -/
def listGet : List JVal → Nat → JVal
  | [], _ => .undefined
  | x :: _, 0 => x
  | _ :: rest, n + 1 => listGet rest n

/-- JavaScript array assignment `arr[i] = x` on a copy of `arr`: replaces
the slot when in range, otherwise extends the array, padding the gap with
`undefined` holes. -/
def listSet : List JVal → Nat → JVal → List JVal
  | _ :: rest, 0, x => x :: rest
  | [], 0, x => [x]
  | [], n + 1, x => .undefined :: listSet [] n x
  | y :: rest, n + 1, x => y :: listSet rest n x

/-- Object property read `obj[k]`: the first entry with key `k`, otherwise
`undefined`. -/
def objGet : List (String × JVal) → String → JVal
  | [], _ => .undefined
  | e :: rest, k => if e.1 = k then e.2 else objGet rest k

/-- Own-property test (`Object.prototype.hasOwnProperty.call(obj, k)`). -/
def hasKey : List (String × JVal) → String → Bool
  | [], _ => false
  | e :: rest, k => e.1 = k || hasKey rest k

/-- Property names every plain object inherits from `Object.prototype`
(the prototype of every `JSON.parse` object), so that the JavaScript
`in` operator answers true for them on any object. -/
def protoKeys : List String :=
  ["constructor", "hasOwnProperty", "isPrototypeOf",
   "propertyIsEnumerable", "toLocaleString", "toString", "valueOf",
   "__defineGetter__", "__defineSetter__", "__lookupGetter__",
   "__lookupSetter__", "__proto__"]

/-- The JavaScript `in` operator on a plain object: an own key, or a
property name inherited from `Object.prototype`. -/
def inKey (m : List (String × JVal)) (k : String) : Bool :=
  hasKey m k || protoKeys.contains k

/-- JavaScript object spread update `{...obj, [k]: v}`: replaces the entry
in place when the key is present, otherwise appends it at the end. -/
def objSet : List (String × JVal) → String → JVal → List (String × JVal)
  | [], k, v => [(k, v)]
  | e :: rest, k, v => if e.1 = k then (k, v) :: rest else e :: objSet rest k v

/-- JavaScript `delete obj[k]` on a copy of `obj`: removes entries with
key `k`, preserving the order of the others. -/
def objDelete : List (String × JVal) → String → List (String × JVal)
  | [], _ => []
  | e :: rest, k => if e.1 = k then objDelete rest k else e :: objDelete rest k

/-- Keys of an association list are pairwise distinct (every JavaScript
object satisfies this by construction). -/
def keysNodup : List (String × JVal) → Bool
  | [] => true
  | e :: rest => !hasKey rest e.1 && keysNodup rest

mutual

/-- Well-formed value: it is not `undefined` and every object in it has
pairwise distinct keys.  Values produced by `JSON.parse` always satisfy
this. -/
def WF : JVal → Bool
  | .undefined => false
  | .arr l => WFlist l
  | .obj m => keysNodup m && WFentries m
  | _ => true

/-- All elements of an array are well-formed. -/
def WFlist : List JVal → Bool
  | [] => true
  | v :: rest => WF v && WFlist rest

/-- All values of an object are well-formed. -/
def WFentries : List (String × JVal) → Bool
  | [] => true
  | e :: rest => WF e.2 && WFentries rest

end

/-- Modelled from the spec: `DocumentModel.read` (spec section 4.2), which
the repository uses only inline.  Walks the segments; a `Key` segment
against a non-mapping, an `Index` segment against a non-list, a missing
key or an out-of-range index yields `undefined`, and the walk never
throws. -/
def readAt : JVal → JPath → JVal
  | v, [] => v
  | v, s :: rest =>
    match v, s with
    | .arr l, .idx i => readAt (listGet l i) rest
    | .obj m, .key k => readAt (objGet m k) rest
    | _, _ => .undefined

/-- Source `updateAtPath` (src/App.tsx:1887): empty path replaces the
whole value; an index segment on an array shallow-copies the array and
writes the slot; a key segment on a plain object spreads the object and
writes the entry; any other combination returns the input unchanged. -/
def updateAtPath : JVal → JPath → JVal → JVal
  | _, [], next => next
  | .arr l, .idx i :: rest, next =>
    .arr (listSet l i (updateAtPath (listGet l i) rest next))
  | .obj m, .key k :: rest, next =>
    .obj (objSet m k (updateAtPath (objGet m k) rest next))
  | v, _ :: _, _ => v

/-- Source `deleteAtPath` (src/App.tsx:1971): for the final segment it
splices an in-range array slot or deletes a present object key and
otherwise returns the input; for earlier segments it shallow-copies the
matching container and recurses, returning the input on a kind
mismatch. -/
def deleteAtPath : JVal → JPath → JVal
  | v, [] => v
  | .arr l, [.idx i] => if i < l.length then .arr (l.eraseIdx i) else .arr l
  | .obj m, [.key k] => if hasKey m k then .obj (objDelete m k) else .obj m
  | v, [_] => v
  | .arr l, .idx i :: rest => .arr (listSet l i (deleteAtPath (listGet l i) rest))
  | .obj m, .key k :: rest => .obj (objSet m k (deleteAtPath (objGet m k) rest))
  | v, _ :: _ => v

/-- The `reduce` walk at the top of source `renameKeyAtPath`
(src/App.tsx:2013): follows matching segments, keeps the accumulator
unchanged on a kind mismatch, and sticks at `null`/`undefined`. -/
def reduceTarget (current : JVal) (parentPath : JPath) : JVal :=
  parentPath.foldl
    (fun acc seg =>
      match acc, seg with
      | .null, _ => .null
      | .undefined, _ => .undefined
      | .arr l, .idx i => listGet l i
      | .obj m, .key k => objGet m k
      | a, _ => a)
    current

/-- The rebuild loop of source `renameKeyAtPath`: iterates the entries of
the target object in order, assigning under `newKey` instead of `oldKey`
into a freshly built object. -/
def buildRenamed (m : List (String × JVal)) (oldKey newKey : String) :
    List (String × JVal) :=
  m.foldl
    (fun next e => objSet next (if e.1 = oldKey then newKey else e.1) e.2) []

/-- Reference form of the renamed object used to state claims: the same
entries in the same order, with `oldKey` replaced by `newKey` in place. -/
def renameEntries (m : List (String × JVal)) (oldKey newKey : String) :
    List (String × JVal) :=
  m.map (fun e => if e.1 = oldKey then (newKey, e.2) else e)

/-- The `patchObject` closure of source `renameKeyAtPath`: walks the
parent path rebuilding matching ancestors, aborts unchanged on a kind
mismatch, and at the end of the path returns the rebuilt object
(`renamed` is the object the closure captured and rebuilt). -/
def patchObject (renamed : List (String × JVal)) : JVal → JPath → JVal
  | _, [] => .obj renamed
  | .arr l, .idx i :: rest =>
    .arr (listSet l i (patchObject renamed (listGet l i) rest))
  | .obj m, .key k :: rest =>
    .obj (objSet m k (patchObject renamed (objGet m k) rest))
  | v, _ :: _ => v

/-- Source `renameKeyAtPath` (src/App.tsx:2007): resolves the parent via
the reduce walk; returns the input unless the target is a plain object;
the existence check `oldKey in obj` and the collision check
`newKey in obj` (App.tsx:2027-2028) use the JavaScript `in` operator,
which walks the prototype chain (`inKey`); otherwise patches the
document with the rebuilt object. -/
def renameKeyAtPath (current : JVal) (parentPath : JPath)
    (oldKey newKey : String) : JVal :=
  match reduceTarget current parentPath with
  | .obj m =>
    if !inKey m oldKey then current
    else if inKey m newKey then current
    else patchObject (buildRenamed m oldKey newKey) current parentPath
  | _ => current

/-- Scanner state for `replace2`: the optional pending character not yet
emitted. -/
def replace2Go (a b c : Char) : Option Char → List Char → List Char
  | none, [] => []
  | some p, [] => [p]
  | none, y :: rest => replace2Go a b c (some y) rest
  | some p, y :: rest =>
    if p = a ∧ y = b then c :: replace2Go a b c none rest
    else p :: replace2Go a b c (some y) rest

/-- Left-to-right, non-overlapping replacement of the two-character
pattern `a b` by the single character `c`, as JavaScript
`String.replace` with a global two-character literal pattern does
(`replace2Go` scans with at most one pending character). -/
def replace2 (a b c : Char) (l : List Char) : List Char :=
  replace2Go a b c none l

/-- Source `decodeJsonPointerToken` (src/App.tsx:2062):
`token.replace(/~1/g, '/').replace(/~0/g, '~')`. -/
def decodeJsonPointerToken (t : List Char) : List Char :=
  replace2 (Char.ofNat 126) (Char.ofNat 48) (Char.ofNat 126)
    (replace2 (Char.ofNat 126) (Char.ofNat 49) (Char.ofNat 47) t)

/-- JavaScript `s.split('/')`: the (always non-empty) list of chunks of
`s` between occurrences of `/`. -/
def splitSlash : List Char → List (List Char)
  | [] => [[]]
  | c :: rest =>
    if c = Char.ofNat 47 then [] :: splitSlash rest
    else
      match splitSlash rest with
      | [] => [[c]]
      | h :: t => (c :: h) :: t

/-- Decimal digit test, `\d` of the source regex. -/
def isDigitChar (c : Char) : Bool := decide (48 ≤ c.toNat ∧ c.toNat ≤ 57)

/-- The source regex `^(0|[1-9]\d*)$` (src/App.tsx:2075): a canonical
decimal numeral with no leading zero except `"0"` itself. -/
def isIndexToken : List Char → Bool
  | [] => false
  | [c] => decide (48 ≤ c.toNat ∧ c.toNat ≤ 57)
  | c :: rest => decide (49 ≤ c.toNat ∧ c.toNat ≤ 57) && rest.all isDigitChar

/-- JavaScript `Number(part)` on a string already matched by
`^(0|[1-9]\d*)$`: the decimal value of the digits. -/
def tokenToNat (t : List Char) : Nat :=
  t.foldl (fun n c => n * 10 + (c.toNat - 48)) 0

/-- The walking loop of source `jsonPointerToPath` (src/App.tsx:2076):
an index-looking token against an array current value becomes an index
segment and descends into that slot (past the end gives `undefined`);
any other token becomes a key segment, descending into the property when
the current value is a plain object and into `undefined` otherwise. -/
def pointerWalk (current : JVal) : List (List Char) → JPath
  | [] => []
  | part :: rest =>
    match current, isIndexToken part with
    | .arr l, true =>
      .idx (tokenToNat part) :: pointerWalk (listGet l (tokenToNat part)) rest
    | .obj m, _ =>
      .key (String.mk part) :: pointerWalk (objGet m (String.mk part)) rest
    | _, _ => .key (String.mk part) :: pointerWalk .undefined rest

/-- The un-escaped tokens of a pointer: split on `/`, drop the leading
empty chunk, un-escape each token. -/
def pointerParts (pointer : List Char) : List (List Char) :=
  ((splitSlash pointer).drop 1).map decodeJsonPointerToken

/-- Source `jsonPointerToPath` (src/App.tsx:2066): `""` decodes to the
root path; a non-empty pointer not starting with `/` is rejected;
otherwise the `/`-separated tokens are un-escaped and classified by
walking the root value alongside. -/
def jsonPointerToPath (pointer : List Char) (root : JVal) : Option JPath :=
  if pointer = [] then some []
  else if pointer.head? ≠ some (Char.ofNat 47) then none
  else some (pointerWalk root (pointerParts pointer))

/-- Expansion of one character into an escape pair: every occurrence of
`target` becomes `a b`, other characters are kept. -/
def escape1 (target a b : Char) : List Char → List Char
  | [] => []
  | c :: rest =>
    if c = target then a :: b :: escape1 target a b rest
    else c :: escape1 target a b rest

/-- Modelled from the spec: the `PathCodec.encode` escaping scheme (spec
section 4.1), which is not in the repository (pointers are produced by
the external evaluator): escape `~` as `~0`, then `/` as `~1`. -/
def escapePointerToken (t : List Char) : List Char :=
  escape1 (Char.ofNat 47) (Char.ofNat 126) (Char.ofNat 49)
    (escape1 (Char.ofNat 126) (Char.ofNat 126) (Char.ofNat 48) t)

/-- Decimal numeral of a natural number, most significant digit first,
no leading zeros except `"0"` itself. -/
def natDigits (n : Nat) : List Char :=
  if h : n < 10 then [Char.ofNat (48 + n)]
  else natDigits (n / 10) ++ [Char.ofNat (48 + n % 10)]
termination_by n
decreasing_by
  exact Nat.div_lt_self (by omega) (by omega)

/-- Escaped pointer token of one segment: the escaped key, or the decimal
numeral of the index. -/
def encSeg : Seg → List Char
  | .key k => escapePointerToken k.data
  | .idx i => natDigits i

/-- Un-escaped token text of one segment: the raw key characters, or the
decimal numeral of the index. -/
def decSeg : Seg → List Char
  | .key k => k.data
  | .idx i => natDigits i

/-- Modelled from the spec: `PathCodec.encode` (spec section 4.1), absent
from the repository: stringify each segment (integer segments as
decimal), escape it, join with `/` and prefix `/`; the empty path
encodes to the empty string. -/
def pathToPointer (p : JPath) : List Char :=
  (p.map (fun s => Char.ofNat 47 :: encSeg s)).flatten

/-- Container-kind compatibility of a path with a document: every proper
prefix of the path resolves to an existing node of the container kind
expected by the next segment (a list for an index segment, a mapping for
a key segment).  The final member itself need not exist. -/
def goodFor : JVal → JPath → Bool
  | _, [] => true
  | .arr l, .idx i :: rest => goodFor (listGet l i) rest
  | .obj m, .key k :: rest => goodFor (objGet m k) rest
  | _, _ :: _ => false

/-- Two paths diverge when they first differ at a position where both are
defined: neither is a prefix of the other up to that point. -/
def diverges : JPath → JPath → Prop
  | p :: ps, q :: qs => p ≠ q ∨ (p = q ∧ diverges ps qs)
  | _, _ => False

/-- A segment is kind-compatible with a container: an index segment with
an array, a key segment with a plain object. -/
def segMatches : JVal → Seg → Bool
  | .arr _, .idx _ => true
  | .obj _, .key _ => true
  | _, _ => false

def hasPairGo (a b p : Char) : List Char → Bool
  | [] => false
  | y :: rest => decide (p = a ∧ y = b) || hasPairGo a b y rest

/-- The two-character pattern `a b` occurs somewhere in the list. -/
def hasPair (a b : Char) : List Char → Bool
  | [] => false
  | x :: rest => hasPairGo a b x rest

/-- Statement form of the decoding rule of spec section 4.1: walking the
root value alongside the tokens, a token becomes an index segment
exactly when the tracked current value is a list and the token matches
`^(0|[1-9]\d*)$`, and a key segment otherwise; the walk then descends
one step (`readAt` for a single segment). -/
def walkAgrees : JVal → JPath → List (List Char) → Prop
  | _, [], [] => True
  | cur, .idx i :: ps, t :: ts =>
    (∃ l, cur = .arr l) ∧ isIndexToken t = true ∧ i = tokenToNat t ∧
      walkAgrees (readAt cur [.idx i]) ps ts
  | cur, .key k :: ps, t :: ts =>
    ¬((∃ l, cur = .arr l) ∧ isIndexToken t = true) ∧ k = String.mk t ∧
      walkAgrees (readAt cur [.key k]) ps ts
  | _, _, _ => False

/-- Source `handleEditAtPointer` combined with `handleEditValue`
(src/App.tsx:2586 and :2570): no document (or the literal `null`
document) drops the edit; a pointer that fails to decode drops the edit;
an error state drops the edit; otherwise the decoded path is written
with `updateAtPath` and the result becomes the new document. -/
def handleEditAtPointer (errState : Bool) (parsed : JVal)
    (pointer : List Char) (nextValue : JVal) : JVal :=
  match parsed with
  | .null => .null
  | doc =>
    match jsonPointerToPath pointer doc with
    | none => doc
    | some path => if errState then doc else updateAtPath doc path nextValue

/-- The backward scanner of source `findLastTopLevelDot`
(src/components/JsonPathTable.tsx:82), processing the reversed prefix:
`i` is the original index of the head character, `rest.head?` is the
character just before it, bracket depth grows on `]` and shrinks
(floored at zero) on `[`, quotes toggle unless backslash-escaped, and
the first dot met at depth zero outside quotes is returned. -/
def fltdAux (quote : Option Char) (depth : Nat) (i : Nat) :
    List Char → Int
  | [] => -1
  | ch :: rest =>
    match quote with
    | some q =>
      if ch = q ∧ rest.head? ≠ some (Char.ofNat 92) then
        fltdAux none depth (i - 1) rest
      else fltdAux (some q) depth (i - 1) rest
    | none =>
      if ch = Char.ofNat 34 ∨ ch = Char.ofNat 39 then
        if rest.head? ≠ some (Char.ofNat 92) then
          fltdAux (some ch) depth (i - 1) rest
        else fltdAux none depth (i - 1) rest
      else if ch = Char.ofNat 93 then fltdAux none (depth + 1) (i - 1) rest
      else if ch = Char.ofNat 91 then fltdAux none (depth - 1) (i - 1) rest
      else if depth > 0 then fltdAux none depth (i - 1) rest
      else if ch = Char.ofNat 46 then Int.ofNat i
      else fltdAux none depth (i - 1) rest

/-- Source `findLastTopLevelDot` (src/components/JsonPathTable.tsx:82):
index of the last dot not inside brackets or quotes as seen by the
backward scan, `-1` when there is none. -/
def findLastTopLevelDot (pre : List Char) : Int :=
  fltdAux none 0 (pre.length - 1) pre.reverse

/-- The forward scanner for the most recent unclosed `[` in source
`getCompletionContext` (src/components/JsonPathTable.tsx:188): tracks
quote state (with backslash escapes via the previous character), records
the index of each `[` met outside quotes and resets to `-1` on `]`. -/
def lubAux (inQuote : Option Char) (lastB : Int) (i : Nat)
    (prev : Option Char) : List Char → Int
  | [] => lastB
  | ch :: rest =>
    match inQuote with
    | some q =>
      if ch = q ∧ prev ≠ some (Char.ofNat 92) then
        lubAux none lastB (i + 1) (some ch) rest
      else lubAux (some q) lastB (i + 1) (some ch) rest
    | none =>
      if (ch = Char.ofNat 34 ∨ ch = Char.ofNat 39) ∧
          prev ≠ some (Char.ofNat 92) then
        lubAux (some ch) lastB (i + 1) (some ch) rest
      else if ch = Char.ofNat 91 then
        lubAux none (Int.ofNat i) (i + 1) (some ch) rest
      else if ch = Char.ofNat 93 then lubAux none (-1) (i + 1) (some ch) rest
      else lubAux none lastB (i + 1) (some ch) rest

/-- Index of the most recent unclosed `[` of the prefix, `-1` if none. -/
def lastUnclosedBracket (pre : List Char) : Int :=
  lubAux none (-1) 0 none pre

/-- The `CompletionContext` union of the source
(src/components/JsonPathTable.tsx:124): kind, the `base`/`partial`
texts where present (`frag` models the source field `partial`), and the
half-open replace range `{start, end}` (modelled as a pair). -/
inductive Ctx where
  | root (replace : Nat × Nat)
  | dot (base frag : List Char) (replace : Nat × Nat)
  | descendant (base frag : List Char) (replace : Nat × Nat)
  | bracketString (base frag : List Char) (replace : Nat × Nat)
  | bracketIndex (base frag : List Char) (replace : Nat × Nat)
  | nonectx (replace : Nat × Nat)
deriving Repr, DecidableEq

/-- Replace range of a completion context. -/
def Ctx.rep : Ctx → Nat × Nat
  | .root r => r
  | .dot _ _ r => r
  | .descendant _ _ r => r
  | .bracketString _ _ r => r
  | .bracketIndex _ _ r => r
  | .nonectx r => r

/-- The clamped cursor of source `getCompletionContext`:
`Math.max(0, Math.min(cursor, expr.length))`. -/
def clampCursor (expr : List Char) (cursor : Int) : Nat :=
  (max 0 (min cursor (Int.ofNat expr.length))).toNat

/-- The bracket sub-branch of source `getCompletionContext`
(src/components/JsonPathTable.tsx:214), with `lb` the index of the
last unclosed `[` of the prefix `pre`: a filter/script start after the
bracket gives None, a quote gives BracketString, anything else
BracketIndex. -/
def classifyBracket (pre : List Char) (sc lb : Nat) : Ctx :=
  if ((pre.drop (lb + 1)).dropWhile Char.isWhitespace).take 2 =
        [Char.ofNat 63, Char.ofNat 40] ∨
      ((pre.drop (lb + 1)).dropWhile Char.isWhitespace).take 1 =
        [Char.ofNat 40] then
    .nonectx (sc, sc)
  else if (pre.drop (lb + 1)).head? = some (Char.ofNat 39) ∨
      (pre.drop (lb + 1)).head? = some (Char.ofNat 34) then
    .bracketString (pre.take lb) ((pre.drop (lb + 1)).drop 1) (lb, sc)
  else .bracketIndex (pre.take lb) (pre.drop (lb + 1)) (lb, sc)

/-- The classification of source `getCompletionContext`
(src/components/JsonPathTable.tsx:158) applied to the prefix `pre`
(the text before the clamped cursor `sc`): root / descendant / dot /
bracket cases / root, following the source branch for branch (the
source's `let` bindings are inlined). -/
def classifyPrefix (pre : List Char) (sc : Nat) : Ctx :=
  if pre.head? ≠ some (Char.ofNat 36) then .root (0, sc)
  else if findLastTopLevelDot pre ≥ 1 then
    if pre.get? ((findLastTopLevelDot pre).toNat - 1) =
        some (Char.ofNat 46) then
      .descendant (pre.take ((findLastTopLevelDot pre).toNat + 1))
        (pre.drop ((findLastTopLevelDot pre).toNat + 1))
        ((pre.take ((findLastTopLevelDot pre).toNat + 1)).length, sc)
    else
      .dot (pre.take (findLastTopLevelDot pre).toNat)
        (pre.drop ((findLastTopLevelDot pre).toNat + 1))
        ((findLastTopLevelDot pre).toNat, sc)
  else if lastUnclosedBracket pre ≥ 0 then
    classifyBracket pre sc (lastUnclosedBracket pre).toNat
  else .root (0, sc)

/-- Source `getCompletionContext`
(src/components/JsonPathTable.tsx:158): clamps the cursor, takes the
prefix, and classifies it. -/
def getCompletionContext (expr : List Char) (cursor : Int) : Ctx :=
  classifyPrefix (expr.take (clampCursor expr cursor))
    (clampCursor expr cursor)

/-- Outcome of committing the table cell editor: a value handed to
`onEditAtPointer`, or a retained validation error. -/
inductive CommitResult where
  | commit (v : JVal)
  | invalid
deriving Repr

/-- JavaScript `String.prototype.trim`: strips whitespace from both
ends. -/
def jsTrim (s : String) : String :=
  String.mk
    (((s.data.dropWhile Char.isWhitespace).reverse.dropWhile
      Char.isWhitespace).reverse)

/-- The final fallback block of source `commitCellEditor`
(src/components/JsonPathTable.tsx:1142): recognize `null`/`true`/`false`
and bare numeric text that round-trips through `String(Number(s))`,
otherwise store the raw text as a string.  `jsNumber` models
`Number()` (`none` for a non-finite result) and `numToString` models
`String()` on a number. -/
def commitFallback (jsNumber : String → Option Rat)
    (numToString : Rat → String) (text trimmed : String) : CommitResult :=
  if trimmed = "" ∨ trimmed = "null" then .commit .null
  else if trimmed = "true" then .commit (.bool true)
  else if trimmed = "false" then .commit (.bool false)
  else
    match jsNumber trimmed with
    | some q =>
      if numToString q = trimmed then .commit (.num q) else .commit (.str text)
    | none => .commit (.str text)

/-- The generic branch of source `commitCellEditor` for
null/object/array originals and boolean fall-through
(src/components/JsonPathTable.tsx:1130): try `JSON.parse` on the trimmed
text when non-empty, then the fallback block.  `jsonParse` models
`JSON.parse` (`none` when it throws). -/
def commitGeneric (jsNumber : String → Option Rat)
    (numToString : Rat → String) (jsonParse : String → Option JVal)
    (text trimmed : String) : CommitResult :=
  if trimmed = "" then commitFallback jsNumber numToString text trimmed
  else
    match jsonParse trimmed with
    | some v => .commit v
    | none => commitFallback jsNumber numToString text trimmed

/-- Source `commitCellEditor` (src/components/JsonPathTable.tsx:1082),
the coercion of the typed text against the original value: strings stay
strings; number originals accept empty/`null` as null, otherwise require
a finite `Number()` parse and fail validation when it is not; boolean
originals accept the literal tokens and empty/`null`, then fall through
to the generic branch; everything else goes to the generic branch. -/
def commitCellEditor (jsNumber : String → Option Rat)
    (numToString : Rat → String) (jsonParse : String → Option JVal)
    (originalValue : JVal) (text : String) : CommitResult :=
  let trimmed := jsTrim text
  match originalValue with
  | .str _ => .commit (.str text)
  | .num _ =>
    if trimmed = "" ∨ trimmed = "null" then .commit .null
    else
      match jsNumber trimmed with
      | none => .invalid
      | some q => .commit (.num q)
  | .bool _ =>
    if trimmed = "true" then .commit (.bool true)
    else if trimmed = "false" then .commit (.bool false)
    else if trimmed = "" ∨ trimmed = "null" then .commit .null
    else commitGeneric jsNumber numToString jsonParse text trimmed
  | _ => commitGeneric jsNumber numToString jsonParse text trimmed

mutual

/-- Source `decodeValue` (src/utils/decodeNestedJson.ts:66): strings
that parse as nested JSON are decoded recursively, arrays and objects
are decoded element-wise, other values are returned as is.  `p` models
`tryParseJson` (with its container-sniffing guard) and the `fuel`
argument bounds the string-re-parsing recursion depth, which is finite
in the source because `JSON.parse` output is smaller than its input;
`none` means the fuel did not suffice. -/
def decodeValueF (p : String → Option JVal) : Nat → JVal → Option JVal
  | fuel, .str s =>
    match p s with
    | Option.none => some (.str s)
    | some v =>
      match fuel with
      | 0 => none
      | n + 1 => decodeValueF p n v
  | fuel, .arr l => (decodeListF p fuel l).map .arr
  | fuel, .obj m => (decodeEntriesF p fuel m).map .obj
  | _, .undefined => some .undefined
  | _, .null => some .null
  | _, .bool b => some (.bool b)
  | _, .num q => some (.num q)
termination_by fuel v => (fuel, sizeOf v)

/-- Element-wise decoding of an array (`value.map(decodeValue)`). -/
def decodeListF (p : String → Option JVal) :
    Nat → List JVal → Option (List JVal)
  | _, [] => some []
  | fuel, v :: rest => do
    let v' ← decodeValueF p fuel v
    let rest' ← decodeListF p fuel rest
    pure (v' :: rest')
termination_by fuel l => (fuel, sizeOf l)

/-- Entry-wise decoding of an object (`Object.entries` rebuild). -/
def decodeEntriesF (p : String → Option JVal) :
    Nat → List (String × JVal) → Option (List (String × JVal))
  | _, [] => some []
  | fuel, (k, v) :: rest => do
    let v' ← decodeValueF p fuel v
    let rest' ← decodeEntriesF p fuel rest
    pure ((k, v') :: rest')
termination_by fuel m => (fuel, sizeOf m)

end

/-- Source `decodeNestedJson` (src/utils/decodeNestedJson.ts:90):
`JSON.parse` the input (modelled by `jsonParse`, `none` when it throws,
collapsed with fuel exhaustion here) and decode the result. -/
def decodeNestedJson (jsonParse : String → Option JVal)
    (p : String → Option JVal) (fuel : Nat) (input : String) : Option JVal :=
  (jsonParse input).bind (decodeValueF p fuel)

/-! ## Basic container lemmas -/

theorem listGet_listSet_self (l : List JVal) (i : Nat) (x : JVal) :
    listGet (listSet l i x) i = x := by
  induction l generalizing i with
  | nil =>
    induction i with
    | zero => rfl
    | succ n ih => simpa [listSet, listGet] using ih
  | cons y rest ih =>
    cases i with
    | zero => rfl
    | succ n => simpa [listSet, listGet] using ih n

theorem listGet_listSet_ne (l : List JVal) (i j : Nat) (x : JVal)
    (h : i ≠ j) : listGet (listSet l i x) j = listGet l j := by
  induction l generalizing i j with
  | nil =>
    induction i generalizing j with
    | zero =>
      cases j with
      | zero => exact absurd rfl h
      | succ m => rfl
    | succ n ih =>
      cases j with
      | zero => rfl
      | succ m =>
        simpa [listSet, listGet] using ih m (by omega)
  | cons y rest ih =>
    cases i with
    | zero =>
      cases j with
      | zero => exact absurd rfl h
      | succ m => rfl
    | succ n =>
      cases j with
      | zero => rfl
      | succ m =>
        simpa [listSet, listGet] using ih n m (by omega)

theorem listSet_listGet_self (l : List JVal) (i : Nat) (h : i < l.length) :
    listSet l i (listGet l i) = l := by
  induction l generalizing i with
  | nil => simp at h
  | cons y rest ih =>
    cases i with
    | zero => rfl
    | succ n =>
      simp only [listSet, listGet]
      rw [ih n (by simpa using h)]

theorem listGet_ge (l : List JVal) (i : Nat) (h : l.length ≤ i) :
    listGet l i = .undefined := by
  induction l generalizing i with
  | nil => rfl
  | cons y rest ih =>
    cases i with
    | zero => simp at h
    | succ n => exact ih n (by simpa using h)

theorem objGet_objSet_self (m : List (String × JVal)) (k : String)
    (v : JVal) : objGet (objSet m k v) k = v := by
  induction m with
  | nil => simp [objSet, objGet]
  | cons e rest ih =>
    by_cases h : e.1 = k
    · simp [objSet, objGet, h]
    · simp [objSet, objGet, h, ih]

theorem objGet_objSet_ne (m : List (String × JVal)) (k k' : String)
    (v : JVal) (h : k ≠ k') : objGet (objSet m k v) k' = objGet m k' := by
  induction m with
  | nil => simp [objSet, objGet, h]
  | cons e rest ih =>
    obtain ⟨a, b⟩ := e
    by_cases he : a = k
    · subst he
      simp [objSet, objGet, h]
    · by_cases hk' : a = k'
      · simp [objSet, objGet, he, hk', Ne.symm h]
      · simp [objSet, objGet, he, hk', ih]

theorem objSet_objGet_self (m : List (String × JVal)) (k : String)
    (h : hasKey m k = true) : objSet m k (objGet m k) = m := by
  induction m with
  | nil => simp [hasKey] at h
  | cons e rest ih =>
    obtain ⟨a, b⟩ := e
    by_cases he : a = k
    · subst he
      simp [objSet, objGet]
    · simp only [hasKey, Bool.or_eq_true, decide_eq_true_eq] at h
      rcases h with h | h
      · exact absurd h he
      · simp [objSet, objGet, he, ih h]

theorem objGet_not_hasKey (m : List (String × JVal)) (k : String)
    (h : hasKey m k = false) : objGet m k = .undefined := by
  induction m with
  | nil => rfl
  | cons e rest ih =>
    simp only [hasKey, Bool.or_eq_false_iff, decide_eq_false_iff_not] at h
    simp [objGet, h.1, ih h.2]

theorem objSet_append (m : List (String × JVal)) (k : String) (v : JVal)
    (h : hasKey m k = false) : objSet m k v = m ++ [(k, v)] := by
  induction m with
  | nil => rfl
  | cons e rest ih =>
    simp only [hasKey, Bool.or_eq_false_iff, decide_eq_false_iff_not] at h
    simp [objSet, h.1, ih h.2]

theorem hasKey_append (m : List (String × JVal)) (x : String × JVal)
    (k : String) : hasKey (m ++ [x]) k = (hasKey m k || decide (x.1 = k)) := by
  induction m with
  | nil => simp [hasKey]
  | cons e rest ih => simp [hasKey, ih, Bool.or_assoc]

/-! ## C1: write read-back and structural sharing -/

theorem updateAtPath_frame (P Q : JPath) (D v : JVal) (h : diverges P Q) :
    readAt (updateAtPath D P v) Q = readAt D Q := by
  induction P generalizing D Q with
  | nil => cases Q <;> simp [diverges] at h
  | cons p ps ih =>
    cases Q with
    | nil => simp [diverges] at h
    | cons q qs =>
      simp only [diverges] at h
      cases D with
      | arr l =>
        cases p with
        | idx i =>
          cases q with
          | key k => simp [updateAtPath, readAt]
          | idx j =>
            rcases h with hne | ⟨heq, hdiv⟩
            · have hij : i ≠ j := fun hh => hne (by rw [hh])
              simp [updateAtPath, readAt, listGet_listSet_ne l i j _ hij]
            · injection heq with hij
              subst hij
              simp only [updateAtPath, readAt, listGet_listSet_self]
              exact ih _ _ hdiv
        | key k => simp [updateAtPath]
      | obj m =>
        cases p with
        | key k =>
          cases q with
          | idx j => simp [updateAtPath, readAt]
          | key k' =>
            rcases h with hne | ⟨heq, hdiv⟩
            · have hkk : k ≠ k' := fun hh => hne (by rw [hh])
              simp [updateAtPath, readAt, objGet_objSet_ne m k k' _ hkk]
            · injection heq with hkk
              subst hkk
              simp only [updateAtPath, readAt, objGet_objSet_self]
              exact ih _ _ hdiv
        | idx i => simp [updateAtPath]
      | undefined => simp [updateAtPath]
      | null => simp [updateAtPath]
      | bool b => simp [updateAtPath]
      | num n => simp [updateAtPath]
      | str s => simp [updateAtPath]

theorem updateAtPath_readback (P : JPath) (D v : JVal)
    (h : goodFor D P = true) : readAt (updateAtPath D P v) P = v := by
  induction P generalizing D with
  | nil => cases D <;> rfl
  | cons p ps ih =>
    cases D with
    | arr l =>
      cases p with
      | idx i =>
        simp only [goodFor] at h
        simp only [updateAtPath, readAt, listGet_listSet_self]
        exact ih _ h
      | key k => simp [goodFor] at h
    | obj m =>
      cases p with
      | key k =>
        simp only [goodFor] at h
        simp only [updateAtPath, readAt, objGet_objSet_self]
        exact ih _ h
      | idx i => simp [goodFor] at h
    | undefined => simp [goodFor] at h
    | null => simp [goodFor] at h
    | bool b => simp [goodFor] at h
    | num n => simp [goodFor] at h
    | str s => simp [goodFor] at h

/-- C1 (amended): for every document `D`, non-empty path `P` whose every
proper prefix resolves in `D` to an existing container of the kind
expected by the next segment, and every value `v`, reading back after the
write yields `v`, and the subtree at every path diverging from `P` reads
back unchanged (the value-level rendering of the structural sharing of
`updateAtPath`, which reuses those subtrees by reference). -/
theorem c1_write_readback_frame (D : JVal) (P : JPath) (v : JVal)
    (_hne : P ≠ []) (hgood : goodFor D P = true) :
    readAt (updateAtPath D P v) P = v ∧
      ∀ Q, diverges P Q → readAt (updateAtPath D P v) Q = readAt D Q :=
  ⟨updateAtPath_readback P D v hgood,
    fun Q hq => updateAtPath_frame P Q D v hq⟩

/-- Witness: a concrete write on `{"a": {"x": 1}, "b": 2}` at path
`["a","x"]`. -/
theorem c1_write_readback_frame_witness :
    ([Seg.key "a", Seg.key "x"] : JPath) ≠ [] ∧
      goodFor (JVal.obj [("a", .obj [("x", .num 1)]), ("b", .num 2)])
        [Seg.key "a", Seg.key "x"] = true ∧
      readAt
        (updateAtPath (JVal.obj [("a", .obj [("x", .num 1)]), ("b", .num 2)])
          [Seg.key "a", Seg.key "x"] (.num 9))
        [Seg.key "a", Seg.key "x"] = .num 9 :=
  ⟨by simp, rfl,
    (c1_write_readback_frame
      (JVal.obj [("a", .obj [("x", .num 1)]), ("b", .num 2)])
      [Seg.key "a", Seg.key "x"] (.num 9) (by simp) rfl).1⟩

/-- Counterexample to C1 as stated: on `{"a": 1}` with path `[0]` (an
index segment against a mapping) and value `5` not previously present
there, the write is a no-op and the read-back is `undefined`, not `5`. -/
theorem c1_counterexample :
    readAt (JVal.obj [("a", .num 1)]) [Seg.idx 0] ≠ JVal.num 5 ∧
      ([Seg.idx 0] : JPath) ≠ [] ∧
      readAt (updateAtPath (JVal.obj [("a", .num 1)]) [Seg.idx 0] (.num 5))
        [Seg.idx 0] ≠ JVal.num 5 := by
  refine ⟨fun h => JVal.noConfusion h, by simp, fun h => JVal.noConfusion h⟩

/-! ## C2: delete on a non-existing path -/

theorem WFlist_listGet (l : List JVal) (i : Nat) (hw : WFlist l = true)
    (hi : i < l.length) : WF (listGet l i) = true := by
  induction l generalizing i with
  | nil => simp at hi
  | cons y rest ih =>
    simp only [WFlist, Bool.and_eq_true] at hw
    cases i with
    | zero => exact hw.1
    | succ n => exact ih n hw.2 (by simpa using hi)

theorem WFentries_objGet (m : List (String × JVal)) (k : String)
    (hw : WFentries m = true) (hk : hasKey m k = true) :
    WF (objGet m k) = true := by
  induction m with
  | nil => simp [hasKey] at hk
  | cons e rest ih =>
    simp only [WFentries, Bool.and_eq_true] at hw
    by_cases he : e.1 = k
    · simp [objGet, he, hw.1]
    · simp only [hasKey, Bool.or_eq_true, decide_eq_true_eq] at hk
      rcases hk with hk | hk
      · exact absurd hk he
      · simp [objGet, he, ih hw.2 hk]

/-- C2 (amended): when the failure is visible at the first segment —
a single-segment path whose target does not exist, or a first segment
whose kind mismatches the root container — `deleteAtPath` returns the
very input; deeper failures instead rebuild the ancestor chain (and can
even insert an `undefined` placeholder entry), so the result need not
even be equal to the input.  Well-formedness rules out documents that
contain `undefined` members, which no `JSON.parse` result contains. -/
theorem c2_delete_noop_first_level (D : JVal) (s : Seg) (rest : JPath)
    (hw : WF D = true) :
    (readAt D [s] = .undefined → deleteAtPath D [s] = D) ∧
      (segMatches D s = false → deleteAtPath D (s :: rest) = D) := by
  constructor
  · intro h
    cases D with
    | arr l =>
      cases s with
      | idx i =>
        simp only [readAt] at h
        by_cases hi : i < l.length
        · have := WFlist_listGet l i (by simpa [WF] using hw) hi
          rw [h] at this
          simp [WF] at this
        · simp [deleteAtPath, hi]
      | key k => rfl
    | obj m =>
      cases s with
      | key k =>
        simp only [readAt] at h
        by_cases hk : hasKey m k = true
        · have hwe : WFentries m = true := by
            simp only [WF, Bool.and_eq_true] at hw
            exact hw.2
          have := WFentries_objGet m k hwe hk
          rw [h] at this
          simp [WF] at this
        · simp [deleteAtPath, hk]
      | idx i => rfl
    | undefined => cases s <;> rfl
    | null => cases s <;> rfl
    | bool b => cases s <;> rfl
    | num n => cases s <;> rfl
    | str t => cases s <;> rfl
  · intro h
    cases D with
    | arr l =>
      cases s with
      | idx i => simp [segMatches] at h
      | key k => cases rest <;> rfl
    | obj m =>
      cases s with
      | key k => simp [segMatches] at h
      | idx i => cases rest <;> rfl
    | undefined => cases s <;> cases rest <;> rfl
    | null => cases s <;> cases rest <;> rfl
    | bool b => cases s <;> cases rest <;> rfl
    | num n => cases s <;> cases rest <;> rfl
    | str t => cases s <;> cases rest <;> rfl

/-- Witness: deleting the absent key `"b"` of `{"a": 1}` returns the
input. -/
theorem c2_delete_noop_first_level_witness :
    WF (JVal.obj [("a", .num 1)]) = true ∧
      readAt (JVal.obj [("a", .num 1)]) [Seg.key "b"] = .undefined ∧
      deleteAtPath (JVal.obj [("a", .num 1)]) [Seg.key "b"] =
        JVal.obj [("a", .num 1)] :=
  ⟨rfl, rfl,
    (c2_delete_noop_first_level (JVal.obj [("a", .num 1)]) (Seg.key "b") []
      rfl).1 rfl⟩

/-- Counterexample to C2 as stated: on `{"a": 1}` the path `["b","c"]`
does not address an existing node, yet `deleteAtPath` does not return the
input — it rebuilds the root and inserts the entry `"b": undefined`. -/
theorem c2_counterexample :
    readAt (JVal.obj [("a", .num 1)]) [Seg.key "b", Seg.key "c"] = .undefined ∧
      deleteAtPath (JVal.obj [("a", .num 1)]) [Seg.key "b", Seg.key "c"] =
        JVal.obj [("a", .num 1), ("b", .undefined)] ∧
      deleteAtPath (JVal.obj [("a", .num 1)]) [Seg.key "b", Seg.key "c"] ≠
        JVal.obj [("a", .num 1)] := by
  refine ⟨rfl, rfl, ?_⟩
  intro h
  rw [show deleteAtPath (JVal.obj [("a", .num 1)]) [Seg.key "b", Seg.key "c"]
      = JVal.obj [("a", .num 1), ("b", .undefined)] from rfl] at h
  simp at h

/-! ## C6: pointer-driven edits -/

/-- C6 (amended): a pointer-driven edit is dropped when there is no
document (the `null` check), when the pointer fails to decode, or when
the app is in an error state; a decoded path is handed to `updateAtPath`,
which no-ops on container-kind mismatches but does create entries at
missing terminal keys or indices. -/
theorem c6_pointer_edit_noop (e : Bool) (doc : JVal) (ptr : List Char)
    (v : JVal) :
    (doc = .null → handleEditAtPointer e doc ptr v = .null) ∧
      (jsonPointerToPath ptr doc = none →
        handleEditAtPointer e doc ptr v = doc) ∧
      (e = true → handleEditAtPointer e doc ptr v = doc) := by
  refine ⟨?_, ?_, ?_⟩
  · intro h
    subst h
    rfl
  · intro h
    cases doc <;> simp [handleEditAtPointer, h]
  · intro h
    subst h
    cases doc <;>
      first
      | rfl
      | (simp only [handleEditAtPointer]
         split <;> simp)

/-- Witness: the malformed pointer `"x"` leaves the document `{"a": 1}`
unchanged. -/
theorem c6_pointer_edit_noop_witness :
    jsonPointerToPath "x".data (JVal.obj [("a", .num 1)]) = none ∧
      handleEditAtPointer false (JVal.obj [("a", .num 1)]) "x".data
        (.num 2) = JVal.obj [("a", .num 1)] :=
  ⟨rfl,
    (c6_pointer_edit_noop false (JVal.obj [("a", .num 1)]) "x".data
      (.num 2)).2.1 rfl⟩

/-- Counterexample to C6 as stated: on `{"a": 1}` the pointer `"/b"`
decodes to the path `["b"]`, which does not address a real node, yet the
edit is not dropped — the write creates the entry `"b": 2`. -/
theorem c6_counterexample :
    readAt (JVal.obj [("a", .num 1)]) [Seg.key "b"] = .undefined ∧
      handleEditAtPointer false (JVal.obj [("a", .num 1)]) "/b".data
        (.num 2) = JVal.obj [("a", .num 1), ("b", .num 2)] ∧
      handleEditAtPointer false (JVal.obj [("a", .num 1)]) "/b".data
        (.num 2) ≠ JVal.obj [("a", .num 1)] := by
  refine ⟨rfl, rfl, ?_⟩
  intro h
  rw [show handleEditAtPointer false (JVal.obj [("a", .num 1)]) "/b".data
      (.num 2) = JVal.obj [("a", .num 1), ("b", .num 2)] from rfl] at h
  simp at h

/-! ## C4: renameKeyAtPath -/

theorem reduceTarget_undef (P : JPath) : reduceTarget .undefined P = .undefined := by
  induction P with
  | nil => rfl
  | cons s P ih => cases s <;> simpa [reduceTarget, List.foldl] using ih

theorem reduceTarget_null (P : JPath) : reduceTarget .null P = .null := by
  induction P with
  | nil => rfl
  | cons s P ih => cases s <;> simpa [reduceTarget, List.foldl] using ih

theorem reduceTarget_bool (P : JPath) (b : Bool) :
    reduceTarget (.bool b) P = .bool b := by
  induction P with
  | nil => rfl
  | cons s P ih => cases s <;> simpa [reduceTarget, List.foldl] using ih

theorem reduceTarget_num (P : JPath) (q : Rat) :
    reduceTarget (.num q) P = .num q := by
  induction P with
  | nil => rfl
  | cons s P ih => cases s <;> simpa [reduceTarget, List.foldl] using ih

theorem reduceTarget_str (P : JPath) (s : String) :
    reduceTarget (.str s) P = .str s := by
  induction P with
  | nil => rfl
  | cons t P ih => cases t <;> simpa [reduceTarget, List.foldl] using ih

theorem readAt_undef (P : JPath) : readAt .undefined P = .undefined := by
  cases P <;> rfl

theorem readAt_obj_reduce (P : JPath) (D : JVal) (m : List (String × JVal))
    (h : readAt D P = .obj m) : reduceTarget D P = .obj m := by
  induction P generalizing D with
  | nil => exact h
  | cons s P ih =>
    cases D with
    | arr l =>
      cases s with
      | idx i =>
        simp only [readAt] at h
        simpa [reduceTarget, List.foldl] using ih _ h
      | key k => exact absurd h (fun hh => JVal.noConfusion hh)
    | obj mm =>
      cases s with
      | key k =>
        simp only [readAt] at h
        simpa [reduceTarget, List.foldl] using ih _ h
      | idx i => exact absurd h (fun hh => JVal.noConfusion hh)
    | undefined => exact absurd h (fun hh => JVal.noConfusion hh)
    | null => exact absurd h (fun hh => JVal.noConfusion hh)
    | bool b => exact absurd h (fun hh => JVal.noConfusion hh)
    | num q => exact absurd h (fun hh => JVal.noConfusion hh)
    | str t => exact absurd h (fun hh => JVal.noConfusion hh)

theorem patchObject_noop (P : JPath) (D : JVal) (m' R : List (String × JVal))
    (h : reduceTarget D P = .obj m') :
    readAt D P = .obj m' ∨ patchObject R D P = D := by
  induction P generalizing D with
  | nil => exact Or.inl h
  | cons s P ih =>
    cases D with
    | arr l =>
      cases s with
      | idx i =>
        by_cases hi : i < l.length
        · have h' : reduceTarget (listGet l i) P = .obj m' := by
            simpa [reduceTarget, List.foldl] using h
          rcases ih _ h' with hr | hp
          · exact Or.inl (by simpa [readAt] using hr)
          · refine Or.inr ?_
            simp only [patchObject, hp]
            rw [listSet_listGet_self l i hi]
        · have hg : listGet l i = .undefined := listGet_ge l i (by omega)
          have h' : reduceTarget (listGet l i) P = .obj m' := by
            simpa [reduceTarget, List.foldl] using h
          rw [hg, reduceTarget_undef] at h'
          exact absurd h' (fun hh => JVal.noConfusion hh)
      | key k => exact Or.inr rfl
    | obj m =>
      cases s with
      | key k =>
        by_cases hk : hasKey m k = true
        · have h' : reduceTarget (objGet m k) P = .obj m' := by
            simpa [reduceTarget, List.foldl] using h
          rcases ih _ h' with hr | hp
          · exact Or.inl (by simpa [readAt] using hr)
          · refine Or.inr ?_
            simp only [patchObject, hp]
            rw [objSet_objGet_self m k hk]
        · have hg : objGet m k = .undefined :=
            objGet_not_hasKey m k (by simpa using hk)
          have h' : reduceTarget (objGet m k) P = .obj m' := by
            simpa [reduceTarget, List.foldl] using h
          rw [hg, reduceTarget_undef] at h'
          exact absurd h' (fun hh => JVal.noConfusion hh)
      | idx i => exact Or.inr rfl
    | undefined =>
      rw [reduceTarget_undef] at h
      exact absurd h (fun hh => JVal.noConfusion hh)
    | null =>
      rw [reduceTarget_null] at h
      exact absurd h (fun hh => JVal.noConfusion hh)
    | bool b =>
      rw [reduceTarget_bool] at h
      exact absurd h (fun hh => JVal.noConfusion hh)
    | num q =>
      rw [reduceTarget_num] at h
      exact absurd h (fun hh => JVal.noConfusion hh)
    | str t =>
      rw [reduceTarget_str] at h
      exact absurd h (fun hh => JVal.noConfusion hh)

theorem patchObject_readAt (P : JPath) (D : JVal)
    (m R : List (String × JVal)) (h : readAt D P = .obj m) :
    readAt (patchObject R D P) P = .obj R := by
  induction P generalizing D with
  | nil => cases D <;> rfl
  | cons s P ih =>
    cases D with
    | arr l =>
      cases s with
      | idx i =>
        simp only [readAt] at h
        simp only [patchObject, readAt, listGet_listSet_self]
        exact ih _ h
      | key k => exact absurd h (fun hh => JVal.noConfusion hh)
    | obj mm =>
      cases s with
      | key k =>
        simp only [readAt] at h
        simp only [patchObject, readAt, objGet_objSet_self]
        exact ih _ h
      | idx i => exact absurd h (fun hh => JVal.noConfusion hh)
    | undefined => exact absurd h (fun hh => JVal.noConfusion hh)
    | null => exact absurd h (fun hh => JVal.noConfusion hh)
    | bool b => exact absurd h (fun hh => JVal.noConfusion hh)
    | num q => exact absurd h (fun hh => JVal.noConfusion hh)
    | str t => exact absurd h (fun hh => JVal.noConfusion hh)

theorem hasKey_of_mem (m : List (String × JVal)) (e : String × JVal)
    (h : e ∈ m) : hasKey m e.1 = true := by
  induction m with
  | nil => cases h
  | cons f rest ih =>
    rcases List.mem_cons.mp h with h | h
    · subst h
      simp [hasKey]
    · simp [hasKey, ih h]

theorem buildRenamed_aux (old new : String) (m : List (String × JVal)) :
    ∀ acc : List (String × JVal), keysNodup m = true →
      hasKey m new = false →
      (∀ e ∈ m, hasKey acc (if e.1 = old then new else e.1) = false) →
      m.foldl
        (fun next e => objSet next (if e.1 = old then new else e.1) e.2)
        acc = acc ++ renameEntries m old new := by
  induction m with
  | nil => intro acc _ _ _; simp [renameEntries]
  | cons e rest ih =>
    intro acc hnd hnew hacc
    obtain ⟨a, b⟩ := e
    simp only [keysNodup, Bool.and_eq_true, Bool.not_eq_true'] at hnd
    simp only [hasKey, Bool.or_eq_false_iff, decide_eq_false_iff_not] at hnew
    have hstep :
        objSet acc (if (a, b).1 = old then new else (a, b).1) (a, b).2 =
          acc ++ [((if a = old then new else a), b)] := by
      simpa using objSet_append acc _ b (hacc (a, b) (List.mem_cons_self _ _))
    have hrest :
        ∀ f ∈ rest,
          hasKey (acc ++ [((if a = old then new else a), b)])
            (if f.1 = old then new else f.1) = false := by
      intro f hf
      rw [hasKey_append]
      have h1 : hasKey acc (if f.1 = old then new else f.1) = false :=
        hacc f (List.mem_cons_of_mem _ hf)
      have hfk : hasKey rest f.1 = true := hasKey_of_mem rest f hf
      have hfnew : f.1 ≠ new := by
        intro h
        rw [h, hnew.2] at hfk
        exact Bool.noConfusion hfk
      have h2 : ¬ ((if a = old then new else a) =
          (if f.1 = old then new else f.1)) := by
        by_cases hao : a = old <;> by_cases hfo : f.1 = old
        · exfalso
          rw [hfo, ← hao, hnd.1] at hfk
          exact Bool.noConfusion hfk
        · simp only [if_pos hao, if_neg hfo]
          exact fun h => hfnew h.symm
        · simp only [if_neg hao, if_pos hfo]
          exact hnew.1
        · simp only [if_neg hao, if_neg hfo]
          intro h
          rw [← h, hnd.1] at hfk
          exact Bool.noConfusion hfk
      simp [h1, h2]
    calc
      List.foldl
          (fun next e => objSet next (if e.1 = old then new else e.1) e.2)
          acc ((a, b) :: rest)
        = List.foldl
            (fun next e => objSet next (if e.1 = old then new else e.1) e.2)
            (acc ++ [((if a = old then new else a), b)]) rest := by
          simp only [List.foldl_cons, hstep]
      _ = acc ++ [((if a = old then new else a), b)] ++
            renameEntries rest old new := ih _ hnd.2 hnew.2 hrest
      _ = acc ++ renameEntries ((a, b) :: rest) old new := by
          simp only [renameEntries, List.map_cons, List.append_assoc]
          congr 1
          by_cases hao : a = old <;> simp [hao]

theorem buildRenamed_eq (m : List (String × JVal)) (old new : String)
    (hnd : keysNodup m = true) (hnew : hasKey m new = false) :
    buildRenamed m old new = renameEntries m old new := by
  have := buildRenamed_aux old new m [] hnd hnew (fun e _ => rfl)
  simpa [buildRenamed] using this

theorem readAt_WF (P : JPath) (D : JVal) (hw : WF D = true) :
    WF (readAt D P) = true ∨ readAt D P = .undefined := by
  induction P generalizing D with
  | nil => exact Or.inl hw
  | cons s P ih =>
    cases D with
    | arr l =>
      cases s with
      | idx i =>
        by_cases hi : i < l.length
        · exact ih _ (WFlist_listGet l i (by simpa [WF] using hw) hi)
        · rw [show readAt (JVal.arr l) (Seg.idx i :: P) =
              readAt (listGet l i) P from rfl,
            listGet_ge l i (by omega), readAt_undef]
          exact Or.inr rfl
      | key k => exact Or.inr rfl
    | obj m =>
      cases s with
      | key k =>
        by_cases hk : hasKey m k = true
        · have hwe : WFentries m = true := by
            simp only [WF, Bool.and_eq_true] at hw
            exact hw.2
          exact ih _ (WFentries_objGet m k hwe hk)
        · rw [show readAt (JVal.obj m) (Seg.key k :: P) =
              readAt (objGet m k) P from rfl,
            objGet_not_hasKey m k (by simpa using hk), readAt_undef]
          exact Or.inr rfl
      | idx i => exact Or.inr rfl
    | undefined => exact Or.inr (readAt_undef _)
    | null => exact Or.inr rfl
    | bool b => exact Or.inr rfl
    | num q => exact Or.inr rfl
    | str t => exact Or.inr rfl

theorem not_hasKey_of_not_inKey (m : List (String × JVal)) (k : String)
    (h : inKey m k = false) : hasKey m k = false := by
  simp only [inKey, Bool.or_eq_false_iff] at h
  exact h.1

theorem inKey_of_hasKey (m : List (String × JVal)) (k : String)
    (h : hasKey m k = true) : inKey m k = true := by
  simp [inKey, h]

theorem renameEntries_id (m : List (String × JVal)) (old new : String)
    (h : hasKey m old = false) : renameEntries m old new = m := by
  induction m with
  | nil => rfl
  | cons e rest ih =>
    simp only [hasKey, Bool.or_eq_false_iff, decide_eq_false_iff_not] at h
    show (if e.1 = old then (new, e.2) else e) ::
      renameEntries rest old new = e :: rest
    rw [if_neg h.1, ih h.2]

theorem patchObject_self (P : JPath) (D : JVal)
    (m : List (String × JVal)) (h : readAt D P = .obj m) :
    patchObject m D P = D := by
  induction P generalizing D with
  | nil =>
    have hD : D = .obj m := h
    rw [hD]
    rfl
  | cons s P ih =>
    cases D with
    | arr l =>
      cases s with
      | idx i =>
        simp only [readAt] at h
        have hi : i < l.length := by
          by_contra hc
          rw [listGet_ge l i (by omega), readAt_undef] at h
          exact JVal.noConfusion h
        simp only [patchObject]
        rw [ih _ h, listSet_listGet_self l i hi]
      | key k => exact absurd h (fun hh => JVal.noConfusion hh)
    | obj m' =>
      cases s with
      | key k =>
        simp only [readAt] at h
        have hk : hasKey m' k = true := by
          by_contra hc
          rw [objGet_not_hasKey m' k (by simpa using hc),
            readAt_undef] at h
          exact JVal.noConfusion h
        simp only [patchObject]
        rw [ih _ h, objSet_objGet_self m' k hk]
      | idx i => exact absurd h (fun hh => JVal.noConfusion hh)
    | undefined => exact absurd h (fun hh => JVal.noConfusion hh)
    | null => exact absurd h (fun hh => JVal.noConfusion hh)
    | bool b => exact absurd h (fun hh => JVal.noConfusion hh)
    | num q => exact absurd h (fun hh => JVal.noConfusion hh)
    | str t => exact absurd h (fun hh => JVal.noConfusion hh)

/-- C4 (amended): `renameKeyAtPath` returns a value equal to the input
whenever `oldKey` is not an own key of the mapping at the parent path or
`newKey` collides under the JavaScript `in` operator — that is, `newKey`
is an own key of the mapping or an inherited `Object.prototype` property
name such as `toString`; and on success (`oldKey` an own key, `newKey`
free of both kinds of collision) the mapping read back at the parent
path holds exactly the original entries in their original insertion
order with `newKey` substituted in place for `oldKey`
(well-formedness captures that JavaScript objects have distinct keys and
documents hold no `undefined` members). -/
theorem c4_rename_spec (D : JVal) (P : JPath) (old new : String)
    (hw : WF D = true) :
    ((∀ m, readAt D P = .obj m →
        (hasKey m old = false ∨ inKey m new = true)) →
      renameKeyAtPath D P old new = D) ∧
      (∀ m, readAt D P = .obj m → hasKey m old = true →
        inKey m new = false →
        readAt (renameKeyAtPath D P old new) P =
          .obj (renameEntries m old new)) := by
  constructor
  · intro hno
    unfold renameKeyAtPath
    cases hrt : reduceTarget D P with
    | obj m' =>
      by_cases ho : inKey m' old = true
      · by_cases hn : inKey m' new = true
        · simp [ho, hn]
        · simp only [ho, Bool.not_true, Bool.false_eq_true, if_false,
            hn, if_neg]
          rcases patchObject_noop P D m' (buildRenamed m' old new) hrt with
            hr | hp
          · rcases hno m' hr with hold | hnew
            · have hkn : keysNodup m' = true := by
                rcases readAt_WF P D hw with hwf | hwf
                · rw [hr] at hwf
                  simp only [WF, Bool.and_eq_true] at hwf
                  exact hwf.1
                · rw [hr] at hwf
                  exact absurd hwf (fun hh => JVal.noConfusion hh)
              have hnewk : hasKey m' new = false := by
                by_contra hc
                exact hn (inKey_of_hasKey m' new (by simpa using hc))
              rw [buildRenamed_eq m' old new hkn hnewk,
                renameEntries_id m' old new hold]
              exact patchObject_self P D m' hr
            · exact absurd hnew hn
          · simpa using hp
      · simp [Bool.not_eq_true] at ho
        simp [ho]
    | undefined => rfl
    | null => rfl
    | bool b => rfl
    | num q => rfl
    | str t => rfl
    | arr l => rfl
  · intro m hread ho hn
    have hrt : reduceTarget D P = .obj m := readAt_obj_reduce P D m hread
    have hkn : keysNodup m = true := by
      rcases readAt_WF P D hw with h | h
      · rw [hread] at h
        simp only [WF, Bool.and_eq_true] at h
        exact h.1
      · rw [hread] at h
        exact absurd h (fun hh => JVal.noConfusion hh)
    have hinold : inKey m old = true := inKey_of_hasKey m old ho
    have hnewk : hasKey m new = false := not_hasKey_of_not_inKey m new hn
    unfold renameKeyAtPath
    rw [hrt]
    simp only [hinold, Bool.not_true, Bool.false_eq_true, if_false, hn,
      if_neg]
    rw [patchObject_readAt P D m _ hread,
      buildRenamed_eq m old new hkn hnewk]

/-- Witness: renaming `"a"` to `"z"` at the root of `{"a": 1, "b": 2}`
(`"z"` collides neither with an own key nor with an inherited
`Object.prototype` name). -/
theorem c4_rename_spec_witness :
    WF (JVal.obj [("a", .num 1), ("b", .num 2)]) = true ∧
      hasKey [("a", JVal.num 1), ("b", JVal.num 2)] "a" = true ∧
      inKey [("a", JVal.num 1), ("b", JVal.num 2)] "z" = false ∧
      readAt (renameKeyAtPath (JVal.obj [("a", .num 1), ("b", .num 2)]) []
          "a" "z") [] = .obj [("z", .num 1), ("b", .num 2)] := by
  refine ⟨rfl, rfl, rfl, ?_⟩
  have h := (c4_rename_spec (JVal.obj [("a", .num 1), ("b", .num 2)]) []
    "a" "z" rfl).2 [("a", .num 1), ("b", .num 2)] rfl rfl rfl
  simpa [renameEntries] using h

/-- Counterexample to C4 as stated: on `{"a": 1}` with `oldKey` `"a"`
present and `newKey` `"toString"` not present in the mapping, the claim
requires a successful rename to `{"toString": 1}`, but the code's
`newKey in obj` check sees the inherited `Object.prototype.toString`
and returns the input unchanged. -/
theorem c4_counterexample :
    hasKey [("a", JVal.num 1)] "a" = true ∧
      hasKey [("a", JVal.num 1)] "toString" = false ∧
      renameKeyAtPath (JVal.obj [("a", .num 1)]) [] "a" "toString" =
        JVal.obj [("a", .num 1)] ∧
      readAt (renameKeyAtPath (JVal.obj [("a", .num 1)]) [] "a"
          "toString") [] ≠
        JVal.obj (renameEntries [("a", JVal.num 1)] "a" "toString") := by
  refine ⟨rfl, rfl, rfl, ?_⟩
  intro h
  rw [show readAt (renameKeyAtPath (JVal.obj [("a", .num 1)]) [] "a"
      "toString") [] = JVal.obj [("a", JVal.num 1)] from rfl] at h
  rw [show renameEntries [("a", JVal.num 1)] "a" "toString" =
      [("toString", JVal.num 1)] from rfl] at h
  simp at h

/-! ## C5: pointer decoding classification -/

theorem pointerWalk_arr_true (l : List JVal) (t : List Char)
    (ts : List (List Char)) (h : isIndexToken t = true) :
    pointerWalk (.arr l) (t :: ts) =
      .idx (tokenToNat t) :: pointerWalk (listGet l (tokenToNat t)) ts := by
  simp [pointerWalk, h]

theorem pointerWalk_arr_false (l : List JVal) (t : List Char)
    (ts : List (List Char)) (h : isIndexToken t = false) :
    pointerWalk (.arr l) (t :: ts) =
      .key (String.mk t) :: pointerWalk .undefined ts := by
  simp [pointerWalk, h]

theorem pointerWalk_obj (m : List (String × JVal)) (t : List Char)
    (ts : List (List Char)) :
    pointerWalk (.obj m) (t :: ts) =
      .key (String.mk t) :: pointerWalk (objGet m (String.mk t)) ts := by
  cases h : isIndexToken t <;> simp [pointerWalk, h]

theorem pointerWalk_other (cur : JVal) (t : List Char)
    (ts : List (List Char)) (h1 : ∀ l, cur ≠ .arr l)
    (h2 : ∀ m, cur ≠ .obj m) :
    pointerWalk cur (t :: ts) =
      .key (String.mk t) :: pointerWalk .undefined ts := by
  cases cur with
  | arr l => exact absurd rfl (h1 l)
  | obj m => exact absurd rfl (h2 m)
  | undefined => cases h : isIndexToken t <;> simp [pointerWalk, h]
  | null => cases h : isIndexToken t <;> simp [pointerWalk, h]
  | bool b => cases h : isIndexToken t <;> simp [pointerWalk, h]
  | num q => cases h : isIndexToken t <;> simp [pointerWalk, h]
  | str s => cases h : isIndexToken t <;> simp [pointerWalk, h]

theorem pointerWalk_agrees (parts : List (List Char)) (cur : JVal) :
    walkAgrees cur (pointerWalk cur parts) parts := by
  induction parts generalizing cur with
  | nil => cases cur <;> trivial
  | cons t ts ih =>
    cases cur with
    | arr l =>
      cases hit : isIndexToken t with
      | true =>
        rw [pointerWalk_arr_true l t ts hit]
        exact ⟨⟨l, rfl⟩, hit, rfl,
          by simpa [readAt] using ih (listGet l (tokenToNat t))⟩
      | false =>
        rw [pointerWalk_arr_false l t ts hit]
        refine ⟨?_, rfl, by simpa [readAt] using ih .undefined⟩
        rintro ⟨-, hb⟩
        rw [hit] at hb
        exact Bool.noConfusion hb
    | obj m =>
      rw [pointerWalk_obj m t ts]
      refine ⟨?_, rfl, by simpa [readAt] using ih (objGet m (String.mk t))⟩
      rintro ⟨⟨l', hl⟩, -⟩
      exact JVal.noConfusion hl
    | undefined =>
      rw [pointerWalk_other _ t ts (fun _ h => JVal.noConfusion h)
        (fun _ h => JVal.noConfusion h)]
      refine ⟨?_, rfl, by simpa [readAt_undef] using ih .undefined⟩
      rintro ⟨⟨l', hl⟩, -⟩
      exact JVal.noConfusion hl
    | null =>
      rw [pointerWalk_other _ t ts (fun _ h => JVal.noConfusion h)
        (fun _ h => JVal.noConfusion h)]
      refine ⟨?_, rfl, by simpa [readAt] using ih .undefined⟩
      rintro ⟨⟨l', hl⟩, -⟩
      exact JVal.noConfusion hl
    | bool b =>
      rw [pointerWalk_other _ t ts (fun _ h => JVal.noConfusion h)
        (fun _ h => JVal.noConfusion h)]
      refine ⟨?_, rfl, by simpa [readAt] using ih .undefined⟩
      rintro ⟨⟨l', hl⟩, -⟩
      exact JVal.noConfusion hl
    | num q =>
      rw [pointerWalk_other _ t ts (fun _ h => JVal.noConfusion h)
        (fun _ h => JVal.noConfusion h)]
      refine ⟨?_, rfl, by simpa [readAt] using ih .undefined⟩
      rintro ⟨⟨l', hl⟩, -⟩
      exact JVal.noConfusion hl
    | str s =>
      rw [pointerWalk_other _ t ts (fun _ h => JVal.noConfusion h)
        (fun _ h => JVal.noConfusion h)]
      refine ⟨?_, rfl, by simpa [readAt] using ih .undefined⟩
      rintro ⟨⟨l', hl⟩, -⟩
      exact JVal.noConfusion hl

/-- C5: `jsonPointerToPath` returns `null` exactly on a non-empty pointer
that does not start with `/`; every decoded path classifies each
un-escaped token as an index segment exactly when the tracked current
value is a list and the token matches `^(0|[1-9]\d*)$`, and as a key
segment otherwise — whether or not the path exists in the document. -/
theorem c5_decode_classification (ptr : List Char) (root : JVal) :
    (jsonPointerToPath ptr root = none ↔
      (ptr ≠ [] ∧ ptr.head? ≠ some (Char.ofNat 47))) ∧
      (∀ path, jsonPointerToPath ptr root = some path →
        walkAgrees root path (pointerParts ptr)) := by
  constructor
  · by_cases hp : ptr = []
    · simp [jsonPointerToPath, hp]
    · by_cases hh : ptr.head? = some (Char.ofNat 47)
      · simp [jsonPointerToPath, hp, hh]
      · simp [jsonPointerToPath, hp, hh]
  · intro path h
    by_cases hp : ptr = []
    · subst hp
      simp only [jsonPointerToPath, ite_true, Option.some.injEq] at h
      subst h
      trivial
    · by_cases hh : ptr.head? = some (Char.ofNat 47)
      · simp only [jsonPointerToPath, hp, hh, ne_eq, not_true_eq_false,
          ite_false, if_false, if_neg, Option.some.injEq] at h
        subst h
        exact pointerWalk_agrees _ root
      · simp [jsonPointerToPath, hp, hh] at h

/-- Witness: decoding `"/a/0"` against `{"a": [7]}` classifies `a` as a
key and `0` as an index. -/
theorem c5_decode_classification_witness :
    walkAgrees (JVal.obj [("a", .arr [.num 7])]) [Seg.key "a", Seg.idx 0]
      (pointerParts "/a/0".data) :=
  (c5_decode_classification "/a/0".data
    (JVal.obj [("a", .arr [.num 7])])).2 [Seg.key "a", Seg.idx 0] rfl

/-! ## C8: pointer codec round-trip -/

theorem escape1_not_mem_target (t a b : Char) (hta : t ≠ a) (htb : t ≠ b) :
    ∀ l, t ∉ escape1 t a b l := by
  intro l
  induction l with
  | nil => simp [escape1]
  | cons c rest ih =>
    by_cases hc : c = t
    · simp only [escape1, if_pos hc, List.mem_cons]
      rintro (h | h | h)
      · exact hta h
      · exact htb h
      · exact ih h
    · simp only [escape1, if_neg hc, List.mem_cons]
      rintro (h | h)
      · exact hc h.symm
      · exact ih h

theorem digit_toNat (k : Nat) (hk : k < 10) :
    (Char.ofNat (48 + k)).toNat = 48 + k := by
  interval_cases k <;> decide

theorem natDigits_digits (n : Nat) :
    ∀ c ∈ natDigits n, 48 ≤ c.toNat ∧ c.toNat ≤ 57 := by
  induction n using Nat.strong_induction_on with
  | _ n ih =>
    intro c hc
    by_cases h : n < 10
    · rw [natDigits, dif_pos h] at hc
      simp only [List.mem_singleton] at hc
      subst hc
      rw [digit_toNat n h]
      omega
    · rw [natDigits, dif_neg h] at hc
      rcases List.mem_append.mp hc with hm | hm
      · exact ih (n / 10) (Nat.div_lt_self (by omega) (by omega)) c hm
      · simp only [List.mem_singleton] at hm
        subst hm
        rw [digit_toNat _ (Nat.mod_lt n (by omega))]
        omega

theorem natDigits_head_pos (n : Nat) (hn : 0 < n) :
    ∃ c cs, natDigits n = c :: cs ∧ 49 ≤ c.toNat ∧ c.toNat ≤ 57 := by
  induction n using Nat.strong_induction_on with
  | _ n ih =>
    by_cases h : n < 10
    · refine ⟨Char.ofNat (48 + n), [], by rw [natDigits, dif_pos h], ?_⟩
      rw [digit_toNat n h]
      omega
    · obtain ⟨c, cs, hcs, hc⟩ :=
        ih (n / 10) (Nat.div_lt_self (by omega) (by omega))
          (Nat.div_pos (by omega) (by omega))
      exact ⟨c, cs ++ [Char.ofNat (48 + n % 10)],
        by rw [natDigits, dif_neg h, hcs]; rfl, hc⟩

theorem isDigitChar_digit (c : Char) (h : 48 ≤ c.toNat ∧ c.toNat ≤ 57) :
    isDigitChar c = true := by
  simp [isDigitChar, h.1, h.2]

theorem natDigits_isIndexToken (n : Nat) :
    isIndexToken (natDigits n) = true := by
  by_cases h : n < 10
  · rw [natDigits, dif_pos h]
    simp only [isIndexToken, decide_eq_true_eq]
    rw [digit_toNat n h]
    omega
  · have hpos : 0 < n / 10 := Nat.div_pos (by omega) (by omega)
    obtain ⟨c, cs, hcs, hc⟩ := natDigits_head_pos (n / 10) hpos
    rw [natDigits, dif_neg h, hcs]
    have hall : ∀ d ∈ cs ++ [Char.ofNat (48 + n % 10)],
        isDigitChar d = true := by
      intro d hd
      rcases List.mem_append.mp hd with hm | hm
      · refine isDigitChar_digit d ?_
        have := natDigits_digits (n / 10) d (by rw [hcs]; simp [hm])
        exact this
      · simp only [List.mem_singleton] at hm
        subst hm
        refine isDigitChar_digit _ ?_
        rw [digit_toNat _ (Nat.mod_lt n (by omega))]
        omega
    cases hcc : cs ++ [Char.ofNat (48 + n % 10)] with
    | nil => exact absurd hcc (by simp)
    | cons e es =>
      rw [List.cons_append, hcc]
      simp only [isIndexToken, Bool.and_eq_true, decide_eq_true_eq,
        List.all_eq_true]
      refine ⟨⟨hc.1, hc.2⟩, ?_⟩
      intro d hd
      exact hall d (by rw [hcc]; exact hd)

theorem tokenToNat_append (l : List Char) (d : Char) :
    tokenToNat (l ++ [d]) = tokenToNat l * 10 + (d.toNat - 48) := by
  simp [tokenToNat, List.foldl_append]

theorem tokenToNat_natDigits (n : Nat) : tokenToNat (natDigits n) = n := by
  induction n using Nat.strong_induction_on with
  | _ n ih =>
    by_cases h : n < 10
    · rw [natDigits, dif_pos h]
      simp only [tokenToNat, List.foldl_cons, List.foldl_nil]
      rw [digit_toNat n h]
      omega
    · rw [natDigits, dif_neg h, tokenToNat_append,
        ih (n / 10) (Nat.div_lt_self (by omega) (by omega)),
        digit_toNat _ (Nat.mod_lt n (by omega))]
      omega

theorem escapePointerToken_no_slash (t : List Char) :
    Char.ofNat 47 ∉ escapePointerToken t :=
  escape1_not_mem_target (Char.ofNat 47) (Char.ofNat 126) (Char.ofNat 49)
    (by decide) (by decide) _

theorem natDigits_no_char (n : Nat) (c : Char)
    (hc : c.toNat < 48 ∨ 57 < c.toNat) : c ∉ natDigits n := by
  intro hm
  have := natDigits_digits n c hm
  omega

theorem encSeg_no_slash (s : Seg) : Char.ofNat 47 ∉ encSeg s := by
  cases s with
  | key k => exact escapePointerToken_no_slash k.data
  | idx i =>
    refine natDigits_no_char i _ ?_
    left
    decide

theorem splitSlash_ne_nil (l : List Char) : splitSlash l ≠ [] := by
  induction l with
  | nil => simp [splitSlash]
  | cons c rest ih =>
    by_cases hc : c = Char.ofNat 47
    · simp [splitSlash, hc]
    · simp only [splitSlash, if_neg hc]
      cases hsp : splitSlash rest with
      | nil => exact absurd hsp ih
      | cons h t => simp

theorem splitSlash_slash (l : List Char) :
    splitSlash (Char.ofNat 47 :: l) = [] :: splitSlash l := by
  simp [splitSlash]

theorem splitSlash_append (t : List Char) (l : List Char)
    (h : List Char) (tl : List (List Char))
    (hns : Char.ofNat 47 ∉ t) (hsp : splitSlash l = h :: tl) :
    splitSlash (t ++ l) = (t ++ h) :: tl := by
  induction t with
  | nil => simpa using hsp
  | cons c t' ih =>
    have hc : c ≠ Char.ofNat 47 := by
      intro hh
      exact hns (by simp [hh])
    have ih' := ih (fun hm => hns (List.mem_cons_of_mem _ hm))
    simp only [List.cons_append, splitSlash, if_neg hc]
    rw [show splitSlash (t'.append l) = (t' ++ h) :: tl from ih']

theorem splitSlash_encode (parts : List (List Char))
    (hns : ∀ t ∈ parts, Char.ofNat 47 ∉ t) :
    splitSlash ((parts.map (fun t => Char.ofNat 47 :: t)).flatten) =
      [] :: parts := by
  induction parts with
  | nil => simp [splitSlash]
  | cons t rest ih =>
    have ih' := ih (fun u hu => hns u (List.mem_cons_of_mem _ hu))
    simp only [List.map_cons, List.flatten_cons, List.cons_append]
    rw [splitSlash_slash]
    rw [splitSlash_append t _ [] rest (hns t (List.mem_cons_self _ _)) ih']
    simp

theorem replace2Go_some (a b c p : Char) (l : List Char)
    (h : p = a → l.head? ≠ some b) :
    replace2Go a b c (some p) l = p :: replace2Go a b c none l := by
  cases l with
  | nil => rfl
  | cons y rest =>
    have hnp : ¬(p = a ∧ y = b) := by
      rintro ⟨h1, h2⟩
      exact h h1 (by simp [h2])
    simp [replace2Go, hnp]

theorem replace2Go_pair (a b c : Char) (l : List Char) :
    replace2Go a b c (some a) (b :: l) = c :: replace2Go a b c none l := by
  simp [replace2Go]

theorem replace2Go_no_target (a b c : Char) (l : List Char)
    (h : ∀ x ∈ l, x ≠ a) : replace2Go a b c none l = l := by
  induction l with
  | nil => rfl
  | cons x rest ih =>
    rw [show replace2Go a b c none (x :: rest) =
        replace2Go a b c (some x) rest from rfl]
    rw [replace2Go_some a b c x rest
      (fun hx => absurd hx (h x (List.mem_cons_self _ _)))]
    rw [ih (fun y hy => h y (List.mem_cons_of_mem _ hy))]

theorem replace2_no_target (a b c : Char) (l : List Char)
    (h : ∀ x ∈ l, x ≠ a) : replace2 a b c l = l :=
  replace2Go_no_target a b c l h

theorem replace2_escape1_same (a b : Char) (t : List Char) :
    replace2 a b a (escape1 a a b t) = t := by
  induction t with
  | nil => rfl
  | cons x rest ih =>
    by_cases hx : x = a
    · simp only [escape1, if_pos hx]
      show replace2Go a b a (some a) (b :: escape1 a a b rest) = x :: rest
      rw [replace2Go_pair]
      rw [show replace2Go a b a none (escape1 a a b rest) =
        replace2 a b a (escape1 a a b rest) from rfl, ih, hx]
    · simp only [escape1, if_neg hx]
      show replace2Go a b a (some x) (escape1 a a b rest) = x :: rest
      rw [replace2Go_some a b a x _ (fun hxa => absurd hxa hx)]
      rw [show replace2Go a b a none (escape1 a a b rest) =
        replace2 a b a (escape1 a a b rest) from rfl, ih]

theorem hasPair_tail (a b x : Char) (rest : List Char)
    (h : hasPair a b (x :: rest) = false) : hasPair a b rest = false := by
  cases rest with
  | nil => rfl
  | cons y r =>
    simp only [hasPair, hasPairGo, Bool.or_eq_false_iff] at h ⊢
    exact h.2

theorem hasPairGo_escape1 (a b b' : Char) (hb' : b' ≠ b) (hba : b ≠ a) :
    ∀ (t : List Char) (p : Char), p ≠ a →
      hasPairGo a b' p (escape1 a a b t) = false := by
  intro t
  induction t with
  | nil => intro p _; rfl
  | cons x rest ih =>
    intro p hp
    by_cases hx : x = a
    · simp only [escape1, if_pos hx, hasPairGo, Bool.or_eq_false_iff,
        decide_eq_false_iff_not]
      refine ⟨by simp [hp], ?_, ih b hba⟩
      rintro ⟨-, hbb'⟩
      exact hb' hbb'.symm
    · simp only [escape1, if_neg hx, hasPairGo, Bool.or_eq_false_iff,
        decide_eq_false_iff_not]
      refine ⟨?_, ih x hx⟩
      simp [hp]

theorem hasPair_escape1 (a b b' : Char) (hb' : b' ≠ b) (hba : b ≠ a)
    (t : List Char) : hasPair a b' (escape1 a a b t) = false := by
  cases t with
  | nil => rfl
  | cons x rest =>
    by_cases hx : x = a
    · simp only [escape1, if_pos hx, hasPair, hasPairGo,
        Bool.or_eq_false_iff]
      refine ⟨?_, hasPairGo_escape1 a b b' hb' hba rest b hba⟩
      simp only [decide_eq_false_iff_not]
      rintro ⟨-, hbb'⟩
      exact hb' hbb'.symm
    · simp only [escape1, if_neg hx, hasPair]
      exact hasPairGo_escape1 a b b' hb' hba rest x hx

theorem replace2_escape1_inv (a b c : Char) (hab : a ≠ b) :
    ∀ u : List Char, hasPair a b u = false →
      replace2 a b c (escape1 c a b u) = u := by
  intro u
  induction u with
  | nil => intro _; rfl
  | cons x rest ih =>
    intro hu
    by_cases hx : x = c
    · simp only [escape1, if_pos hx]
      show replace2Go a b c (some a) (b :: escape1 c a b rest) = x :: rest
      rw [replace2Go_pair]
      rw [show replace2Go a b c none (escape1 c a b rest) =
        replace2 a b c (escape1 c a b rest) from rfl]
      rw [ih (hasPair_tail a b x rest hu), hx]
    · simp only [escape1, if_neg hx]
      show replace2Go a b c (some x) (escape1 c a b rest) = x :: rest
      rw [replace2Go_some a b c x _ ?_]
      · rw [show replace2Go a b c none (escape1 c a b rest) =
          replace2 a b c (escape1 c a b rest) from rfl]
        rw [ih (hasPair_tail a b x rest hu)]
      · intro hxa
        cases rest with
        | nil => simp [escape1]
        | cons y r =>
          by_cases hy : y = c
          · simp only [escape1, if_pos hy, List.head?_cons, ne_eq,
              Option.some.injEq]
            exact fun hh => hab hh
          · simp only [escape1, if_neg hy, List.head?_cons, ne_eq,
              Option.some.injEq]
            intro hyb
            rw [hxa, hyb] at hu
            simp [hasPair, hasPairGo] at hu

theorem stringMk_data (s : String) : String.mk s.data = s := rfl

theorem decode_encSeg (s : Seg) :
    decodeJsonPointerToken (encSeg s) = decSeg s := by
  cases s with
  | key k =>
    show decodeJsonPointerToken (escapePointerToken k.data) = k.data
    unfold decodeJsonPointerToken escapePointerToken
    rw [replace2_escape1_inv (Char.ofNat 126) (Char.ofNat 49) (Char.ofNat 47)
      (by decide) _
      (hasPair_escape1 (Char.ofNat 126) (Char.ofNat 48) (Char.ofNat 49)
        (by decide) (by decide) k.data)]
    exact replace2_escape1_same (Char.ofNat 126) (Char.ofNat 48) k.data
  | idx i =>
    show decodeJsonPointerToken (natDigits i) = natDigits i
    have hnot : ∀ x ∈ natDigits i, x ≠ Char.ofNat 126 := by
      intro x hx hh
      have := natDigits_digits i x hx
      rw [hh] at this
      exact absurd this (by decide)
    unfold decodeJsonPointerToken
    rw [replace2_no_target _ _ _ _ hnot, replace2_no_target _ _ _ _ hnot]

theorem pointerParts_encode (P : JPath) :
    pointerParts (pathToPointer P) = P.map decSeg := by
  cases P with
  | nil => rfl
  | cons s rest =>
    have hns : ∀ t ∈ (s :: rest).map encSeg, Char.ofNat 47 ∉ t := by
      intro t ht
      rcases List.mem_map.mp ht with ⟨u, -, hu⟩
      rw [← hu]
      exact encSeg_no_slash u
    have hsp := splitSlash_encode ((s :: rest).map encSeg) hns
    rw [List.map_map] at hsp
    unfold pointerParts pathToPointer
    rw [show ((s :: rest).map fun t => Char.ofNat 47 :: encSeg t) =
      (s :: rest).map ((fun t => Char.ofNat 47 :: t) ∘ encSeg) from rfl]
    rw [hsp]
    simp only [List.drop_succ_cons, List.drop_zero, List.map_map]
    apply List.map_congr_left
    intro u _
    exact decode_encSeg u

theorem pointerWalk_decSeg (P : JPath) (D : JVal)
    (h : goodFor D P = true) : pointerWalk D (P.map decSeg) = P := by
  induction P generalizing D with
  | nil => cases D <;> rfl
  | cons s rest ih =>
    cases D with
    | arr l =>
      cases s with
      | idx i =>
        simp only [goodFor] at h
        simp only [List.map_cons, decSeg]
        rw [pointerWalk_arr_true l _ _ (natDigits_isIndexToken i),
          tokenToNat_natDigits, ih _ h]
      | key k => simp [goodFor] at h
    | obj m =>
      cases s with
      | key k =>
        simp only [goodFor] at h
        simp only [List.map_cons, decSeg]
        rw [pointerWalk_obj, stringMk_data, ih _ h]
      | idx i => simp [goodFor] at h
    | undefined => simp [goodFor] at h
    | null => simp [goodFor] at h
    | bool b => simp [goodFor] at h
    | num q => simp [goodFor] at h
    | str t => simp [goodFor] at h

/-- C8: PathCodec round-trip — for every path whose proper prefixes all
resolve in the document to an existing container of the expected kind,
decoding the encoded pointer against the document yields the path
again. -/
theorem c8_roundtrip (D : JVal) (P : JPath) (hgood : goodFor D P = true) :
    jsonPointerToPath (pathToPointer P) D = some P := by
  cases P with
  | nil => rfl
  | cons s rest =>
    have hform : pathToPointer (s :: rest) =
        Char.ofNat 47 ::
          (encSeg s ++ (rest.map (fun u => Char.ofNat 47 :: encSeg u)).flatten) := by
      simp [pathToPointer]
    have h1 : ¬ pathToPointer (s :: rest) = [] := by
      rw [hform]
      simp
    have h2 : (pathToPointer (s :: rest)).head? = some (Char.ofNat 47) := by
      rw [hform]
      rfl
    simp only [jsonPointerToPath, h1, h2, ne_eq, not_true_eq_false,
      if_false, ite_false]
    rw [pointerParts_encode, pointerWalk_decSeg _ _ hgood]

/-- Witness: the path `["a", 0]` over `{"a": [7]}` round-trips through
the pointer `"/a/0"`. -/
theorem c8_roundtrip_witness :
    goodFor (JVal.obj [("a", .arr [.num 7])]) [Seg.key "a", Seg.idx 0]
        = true ∧
      jsonPointerToPath
        (pathToPointer [Seg.key "a", Seg.idx 0])
        (JVal.obj [("a", .arr [.num 7])]) =
        some [Seg.key "a", Seg.idx 0] :=
  ⟨rfl, c8_roundtrip (JVal.obj [("a", .arr [.num 7])])
    [Seg.key "a", Seg.idx 0] rfl⟩

/-! ## C3: completion context of a filter expression -/

/-- C3 evaluated on the code: for `"$.arr[?(@.x"` with the cursor at the
end, `getCompletionContext` classifies the context as a DotSegment with
base `"$.arr[?(@"` and partial `"x"` — not as None.  The backward dot
scan, despite its comment "ignoring dots inside brackets/quotes", counts
the dot inside the unclosed `[?(` bracket because scanning backward it
has seen no `]` and the depth is floored at zero, contradicting both the
spec's example and the code's own comments. -/
theorem c3_code_behavior :
    getCompletionContext "$.arr[?(@.x".data 11 =
      Ctx.dot "$.arr[?(@".data "x".data (9, 11) := by rfl

/-! ## C10: totality and range invariant of the context analyzer -/

theorem neg_one_le_ofNat (i : Nat) : (-1 : Int) ≤ Int.ofNat i :=
  le_trans (by norm_num) (Int.ofNat_nonneg i)

theorem fltdAux_bound (l : List Char) : ∀ (q : Option Char) (d i : Nat),
    -1 ≤ fltdAux q d i l ∧ fltdAux q d i l ≤ Int.ofNat i := by
  induction l with
  | nil =>
    intro q d i
    cases q <;> exact ⟨le_refl _, neg_one_le_ofNat i⟩
  | cons ch rest ih =>
    intro q d i
    have hmono : ∀ r : Int, r ≤ Int.ofNat (i - 1) → r ≤ Int.ofNat i :=
      fun r hr => hr.trans (Int.ofNat_le.mpr (Nat.sub_le i 1))
    cases q with
    | some qq =>
      simp only [fltdAux]
      split_ifs <;> exact ⟨(ih _ _ _).1, hmono _ (ih _ _ _).2⟩
    | none =>
      simp only [fltdAux]
      split_ifs <;>
        first
        | exact ⟨(ih _ _ _).1, hmono _ (ih _ _ _).2⟩
        | exact ⟨neg_one_le_ofNat i, le_refl _⟩

theorem findLastTopLevelDot_bound (pre : List Char) :
    -1 ≤ findLastTopLevelDot pre ∧
      findLastTopLevelDot pre ≤ Int.ofNat (pre.length - 1) := by
  have h := fltdAux_bound pre.reverse none 0 (pre.length - 1)
  exact h

theorem lubAux_bound (l : List Char) :
    ∀ (q : Option Char) (lastB : Int) (i : Nat) (prev : Option Char),
      -1 ≤ lastB → lastB < Int.ofNat i →
      -1 ≤ lubAux q lastB i prev l ∧
        lubAux q lastB i prev l < Int.ofNat (i + l.length) := by
  induction l with
  | nil =>
    intro q lastB i prev h1 h2
    cases q <;> exact ⟨h1, by simpa using h2⟩
  | cons ch rest ih =>
    intro q lastB i prev h1 h2
    have hlen : Int.ofNat (i + 1 + rest.length)
        = Int.ofNat (i + (ch :: rest).length) := by
      simp only [List.length_cons]
      congr 1
      omega
    have hlt : lastB < Int.ofNat (i + 1) :=
      h2.trans_le (Int.ofNat_le.mpr (by omega))
    have hi1 : Int.ofNat i < Int.ofNat (i + 1) := by
      simp only [Int.ofNat_eq_natCast]
      omega
    cases q with
    | some qq =>
      simp only [lubAux]
      split_ifs <;>
        · rw [← hlen]
          exact ih _ _ _ _ h1 hlt
    | none =>
      simp only [lubAux]
      split_ifs <;>
        rw [← hlen] <;>
        first
        | exact ih _ _ _ _ h1 hlt
        | exact ih _ _ _ _ (neg_one_le_ofNat i) hi1
        | exact ih _ _ _ _ (le_refl _)
            (by simp only [Int.ofNat_eq_natCast]; omega)

theorem lastUnclosedBracket_bound (pre : List Char) :
    -1 ≤ lastUnclosedBracket pre ∧
      lastUnclosedBracket pre < Int.ofNat pre.length := by
  have h := lubAux_bound pre none (-1) 0 none (le_refl _)
    (by simp only [Int.ofNat_eq_natCast]; omega)
  simpa using h

theorem classifyBracket_range (pre : List Char) (sc lb : Nat)
    (hlb : lb ≤ sc) :
    (classifyBracket pre sc lb).rep.2 = sc ∧
      (classifyBracket pre sc lb).rep.1 ≤ sc := by
  unfold classifyBracket
  split_ifs <;> simp [Ctx.rep, hlb]

theorem classifyPrefix_range (pre : List Char) (sc : Nat)
    (hlen : pre.length ≤ sc) :
    (classifyPrefix pre sc).rep.2 = sc ∧
      (classifyPrefix pre sc).rep.1 ≤ sc := by
  unfold classifyPrefix
  by_cases h0 : pre.head? ≠ some (Char.ofNat 36)
  · rw [if_pos h0]
    exact ⟨rfl, Nat.zero_le _⟩
  · rw [if_neg h0]
    by_cases h1 : findLastTopLevelDot pre ≥ 1
    · have hb := (findLastTopLevelDot_bound pre).2
      simp only [Int.ofNat_eq_natCast] at hb
      have hld : (findLastTopLevelDot pre).toNat ≤ pre.length - 1 := by
        omega
      have hlen1 : 1 ≤ pre.length := by
        by_contra hc
        have hz : pre.length - 1 = 0 := by omega
        rw [hz] at hb
        simp only [Nat.cast_zero] at hb
        omega
      rw [if_pos h1]
      by_cases h2 : pre.get? ((findLastTopLevelDot pre).toNat - 1) =
          some (Char.ofNat 46)
      · rw [if_pos h2]
        refine ⟨rfl, ?_⟩
        show (pre.take ((findLastTopLevelDot pre).toNat + 1)).length ≤ sc
        calc (pre.take ((findLastTopLevelDot pre).toNat + 1)).length
            ≤ pre.length := by simp [List.length_take]
          _ ≤ sc := hlen
      · rw [if_neg h2]
        refine ⟨rfl, ?_⟩
        show (findLastTopLevelDot pre).toNat ≤ sc
        omega
    · rw [if_neg h1]
      by_cases h3 : lastUnclosedBracket pre ≥ 0
      · rw [if_pos h3]
        have hb := (lastUnclosedBracket_bound pre).2
        simp only [Int.ofNat_eq_natCast] at hb
        have hlb : (lastUnclosedBracket pre).toNat ≤ sc := by omega
        exact classifyBracket_range pre sc _ hlb
      · rw [if_neg h3]
        exact ⟨rfl, Nat.zero_le _⟩

/-- C10: for every expression and every integer cursor — negative or
beyond the text included — the analyzer returns a context whose replace
range satisfies `start ≤ end ≤ length(expr)`, with `end` equal to the
cursor clamped into `[0, length]` (`start ≥ 0` holds by the range being
natural numbers; totality holds because `getCompletionContext` is a
total function). -/
theorem c10_context_total_range (expr : List Char) (cursor : Int) :
    (getCompletionContext expr cursor).rep.2 = clampCursor expr cursor ∧
      (getCompletionContext expr cursor).rep.1 ≤
        (getCompletionContext expr cursor).rep.2 ∧
      (getCompletionContext expr cursor).rep.2 ≤ expr.length := by
  have hscle : clampCursor expr cursor ≤ expr.length := by
    unfold clampCursor
    have h1 : max 0 (min cursor (Int.ofNat expr.length)) ≤
        Int.ofNat expr.length := by
      have h2 : (0 : Int) ≤ Int.ofNat expr.length := Int.ofNat_nonneg _
      exact max_le h2 (min_le_right _ _)
    simp only [Int.ofNat_eq_natCast] at h1
    exact Int.toNat_le.mpr h1
  have hlen : (expr.take (clampCursor expr cursor)).length ≤
      clampCursor expr cursor := by
    simp [List.length_take]
  have h := classifyPrefix_range (expr.take (clampCursor expr cursor))
    (clampCursor expr cursor) hlen
  unfold getCompletionContext
  refine ⟨h.1, ?_, ?_⟩
  · rw [h.1]
    exact h.2
  · rw [h.1]
    exact hscle

/-! ## C7: cell edit coercion -/

/-- C7 (amended): for a number-original cell, empty or `null` text
commits `null`; any other text whose `Number()` parse is not finite
fails with a validation error and commits nothing; for a
boolean-original cell, a boolean is committed only for the literal
trimmed tokens `true` and `false` (the hypothesis on `jsonParse` states
the fact that `JSON.parse` yields a boolean only on those exact
texts). -/
theorem c7_commit_coercion (jsNumber : String → Option Rat)
    (numToString : Rat → String) (jsonParse : String → Option JVal)
    (text : String)
    (hJP : ∀ s b, jsonParse s = some (.bool b) →
      s = "true" ∨ s = "false") :
    (∀ q : Rat, jsTrim text ≠ "" → jsTrim text ≠ "null" →
      jsNumber (jsTrim text) = none →
      commitCellEditor jsNumber numToString jsonParse (.num q) text =
        .invalid) ∧
      (∀ b0 b : Bool,
        commitCellEditor jsNumber numToString jsonParse (.bool b0) text =
          .commit (.bool b) →
        (jsTrim text = "true" ∧ b = true) ∨
          (jsTrim text = "false" ∧ b = false)) := by
  constructor
  · intro q h1 h2 h3
    show (if jsTrim text = "" ∨ jsTrim text = "null" then
        CommitResult.commit .null
      else
        match jsNumber (jsTrim text) with
        | none => CommitResult.invalid
        | some q => CommitResult.commit (.num q)) = CommitResult.invalid
    rw [if_neg (by simp [h1, h2]), h3]
  · intro b0 b h
    by_cases h1 : jsTrim text = "true"
    · refine Or.inl ⟨h1, ?_⟩
      rw [show commitCellEditor jsNumber numToString jsonParse
          (.bool b0) text =
          (if jsTrim text = "true" then CommitResult.commit (.bool true)
           else if jsTrim text = "false" then
             CommitResult.commit (.bool false)
           else if jsTrim text = "" ∨ jsTrim text = "null" then
             CommitResult.commit .null
           else commitGeneric jsNumber numToString jsonParse text
             (jsTrim text)) from rfl, if_pos h1] at h
      injection h with h
      injection h with h
      exact h.symm
    · by_cases h2 : jsTrim text = "false"
      · refine Or.inr ⟨h2, ?_⟩
        rw [show commitCellEditor jsNumber numToString jsonParse
            (.bool b0) text =
            (if jsTrim text = "true" then CommitResult.commit (.bool true)
             else if jsTrim text = "false" then
               CommitResult.commit (.bool false)
             else if jsTrim text = "" ∨ jsTrim text = "null" then
               CommitResult.commit .null
             else commitGeneric jsNumber numToString jsonParse text
               (jsTrim text)) from rfl, if_neg h1, if_pos h2] at h
        injection h with h
        injection h with h
        exact h.symm
      · exfalso
        rw [show commitCellEditor jsNumber numToString jsonParse
            (.bool b0) text =
            (if jsTrim text = "true" then CommitResult.commit (.bool true)
             else if jsTrim text = "false" then
               CommitResult.commit (.bool false)
             else if jsTrim text = "" ∨ jsTrim text = "null" then
               CommitResult.commit .null
             else commitGeneric jsNumber numToString jsonParse text
               (jsTrim text)) from rfl, if_neg h1, if_neg h2] at h
        by_cases h3 : jsTrim text = "" ∨ jsTrim text = "null"
        · rw [if_pos h3] at h
          injection h with h
          exact JVal.noConfusion h
        · rw [if_neg h3] at h
          unfold commitGeneric at h
          rw [if_neg (by
            intro hh
            exact h3 (Or.inl hh))] at h
          split at h
          next v hjp =>
            injection h with h
            rw [h] at hjp
            rcases hJP _ _ hjp with hh | hh
            · exact h1 hh
            · exact h2 hh
          next hjp =>
            unfold commitFallback at h
            rw [if_neg h3, if_neg h1, if_neg h2] at h
            split at h
            next q hn =>
              by_cases hs : numToString q = jsTrim text
              · rw [if_pos hs] at h
                injection h with h
                exact JVal.noConfusion h
              · rw [if_neg hs] at h
                injection h with h
                exact JVal.noConfusion h
            next hn =>
              injection h with h
              exact JVal.noConfusion h

/-- Witness: a number-original cell edited to `"abc"` (unparseable) is
rejected with a validation error. -/
theorem c7_commit_coercion_witness :
    jsTrim "abc" ≠ "" ∧
      commitCellEditor (fun _ => none) (fun _ => "") (fun _ => none)
        (.num 1) "abc" = .invalid :=
  ⟨by decide,
    (c7_commit_coercion (fun _ => none) (fun _ => "") (fun _ => none)
      "abc" (fun _ _ h => Option.noConfusion h)).1 1 (by decide) (by decide)
      rfl⟩

/-- Counterexample to C7 as stated: with a number original, the text
`"null"` cannot be parsed as a number, yet the edit does not fail — it
commits `null`. -/
theorem c7_counterexample :
    commitCellEditor (fun _ => none) (fun _ => "") (fun _ => none)
        (.num 1) "null" = .commit .null ∧
      (fun _ => (none : Option Rat)) "null" = none ∧
      commitCellEditor (fun _ => none) (fun _ => "") (fun _ => none)
        (.num 1) "null" ≠ .invalid := by
  refine ⟨rfl, rfl, ?_⟩
  intro h
  rw [show commitCellEditor (fun _ => none) (fun _ => "") (fun _ => none)
      (.num 1) "null" = .commit .null from rfl] at h
  exact CommitResult.noConfusion h

/-! ## C9: idempotence of nested JSON decoding -/

mutual

theorem decodeValueF_fix (p : String → Option JVal) :
    (fuel : Nat) → (v r : JVal) → decodeValueF p fuel v = some r →
    (fuel2 : Nat) → decodeValueF p fuel2 r = some r
  | fuel, .str s, r, h, fuel2 => by
    simp only [decodeValueF] at h
    cases hps : p s with
    | none =>
      rw [hps] at h
      injection h with h
      subst h
      simp only [decodeValueF, hps]
    | some v =>
      rw [hps] at h
      cases fuel with
      | zero => exact absurd h (by simp)
      | succ n => exact decodeValueF_fix p n v r h fuel2
  | fuel, .arr l, r, h, fuel2 => by
    simp only [decodeValueF] at h
    rcases Option.map_eq_some'.mp h with ⟨l', hl', rfl⟩
    simp only [decodeValueF]
    rw [decodeListF_fix p fuel l l' hl' fuel2]
    rfl
  | fuel, .obj m, r, h, fuel2 => by
    simp only [decodeValueF] at h
    rcases Option.map_eq_some'.mp h with ⟨m', hm', rfl⟩
    simp only [decodeValueF]
    rw [decodeEntriesF_fix p fuel m m' hm' fuel2]
    rfl
  | fuel, .undefined, r, h, fuel2 => by
    simp only [decodeValueF] at h
    injection h with h
    subst h
    simp [decodeValueF]
  | fuel, .null, r, h, fuel2 => by
    simp only [decodeValueF] at h
    injection h with h
    subst h
    simp [decodeValueF]
  | fuel, .bool b, r, h, fuel2 => by
    simp only [decodeValueF] at h
    injection h with h
    subst h
    simp [decodeValueF]
  | fuel, .num q, r, h, fuel2 => by
    simp only [decodeValueF] at h
    injection h with h
    subst h
    simp [decodeValueF]
termination_by fuel v _r _h _fuel2 => (fuel, sizeOf v)

theorem decodeListF_fix (p : String → Option JVal) :
    (fuel : Nat) → (l r : List JVal) → decodeListF p fuel l = some r →
    (fuel2 : Nat) → decodeListF p fuel2 r = some r
  | fuel, [], r, h, fuel2 => by
    simp only [decodeListF] at h
    injection h with h
    subst h
    simp [decodeListF]
  | fuel, v :: rest, r, h, fuel2 => by
    simp only [decodeListF, Option.bind_eq_bind] at h
    cases hv : decodeValueF p fuel v with
    | none => rw [hv] at h; exact absurd h (by simp)
    | some v' =>
      rw [hv] at h
      cases hr : decodeListF p fuel rest with
      | none => rw [hr] at h; exact absurd h (by simp)
      | some rest' =>
        rw [hr] at h
        simp only [Option.some_bind, Option.bind_some] at h
        injection h with h
        subst h
        simp only [decodeListF, Option.bind_eq_bind]
        rw [decodeValueF_fix p fuel v v' hv fuel2,
          decodeListF_fix p fuel rest rest' hr fuel2]
        rfl
termination_by fuel l _r _h _fuel2 => (fuel, sizeOf l)

theorem decodeEntriesF_fix (p : String → Option JVal) :
    (fuel : Nat) → (m r : List (String × JVal)) →
    decodeEntriesF p fuel m = some r →
    (fuel2 : Nat) → decodeEntriesF p fuel2 r = some r
  | fuel, [], r, h, fuel2 => by
    simp only [decodeEntriesF] at h
    injection h with h
    subst h
    simp [decodeEntriesF]
  | fuel, (k, v) :: rest, r, h, fuel2 => by
    simp only [decodeEntriesF, Option.bind_eq_bind] at h
    cases hv : decodeValueF p fuel v with
    | none => rw [hv] at h; exact absurd h (by simp)
    | some v' =>
      rw [hv] at h
      cases hr : decodeEntriesF p fuel rest with
      | none => rw [hr] at h; exact absurd h (by simp)
      | some rest' =>
        rw [hr] at h
        simp only [Option.some_bind, Option.bind_some] at h
        injection h with h
        subst h
        simp only [decodeEntriesF, Option.bind_eq_bind]
        rw [decodeValueF_fix p fuel v v' hv fuel2,
          decodeEntriesF_fix p fuel rest rest' hr fuel2]
        rfl
termination_by fuel m _r _h _fuel2 => (fuel, sizeOf m)

end

/-- C9: the nested-JSON re-parser is idempotent — whenever
`decodeNestedJson` succeeds with result `V`, running the recursive
string-decoding step `decodeValue` again on `V` returns `V` unchanged
(for any string-parsing oracle `p` and any recursion budget). -/
theorem c9_decode_idempotent (jsonParse p : String → Option JVal)
    (fuel : Nat) (input : String) (V : JVal)
    (h : decodeNestedJson jsonParse p fuel input = some V) :
    ∀ fuel2, decodeValueF p fuel2 V = some V := by
  intro fuel2
  unfold decodeNestedJson at h
  cases hr : jsonParse input with
  | none =>
    rw [hr] at h
    exact absurd h (by simp)
  | some root =>
    rw [hr, Option.some_bind] at h
    exact decodeValueF_fix p fuel root V h fuel2

/-- Witness: decoding the number document `1` and re-running the decoder
on the result. -/
theorem c9_decode_idempotent_witness :
    decodeNestedJson (fun _ => some (.num 1)) (fun _ => none) 0 "1" =
        some (.num 1) ∧
      decodeValueF (fun _ => none) 0 (.num 1) = some (.num 1) :=
  ⟨by simp [decodeNestedJson, decodeValueF],
    c9_decode_idempotent (fun _ => some (.num 1)) (fun _ => none) 0 "1"
      (.num 1) (by simp [decodeNestedJson, decodeValueF]) 0⟩
